import Mathlib

/-!
Verification of the lean0.1 kernel specification against its source.

The development shallowly embeds the kernel's data model and the operations
the claims are about:

* terms (`K0.Expr`, from `kernel/expr.h` as used by the sources under review,
  with levels `K0.Level` and value plugins `K0.Value` from `library/arith`),
* the substitution algebra (`K0.instantiate_core`, `K0.apply_beta` from
  `kernel/instantiate.cpp`),
* maximal sharing (`K0.max_sharing` from `kernel/max_sharing.cpp`),
* structural (alpha) equality (`K0.expr_eq` from `kernel/expr_eq.h`),
* the metavariable environment, environment, normalizer and type checker
  state machines (modelled from the spec where the implementation files are
  not part of the sources under review).

Machine integers of the C++ sources (`unsigned`) only index de Bruijn
variables and array positions; they are embedded as `Nat` (no arithmetic in
the sources can overflow them on the inputs considered, and the sources
themselves guard every subtraction).  The arbitrary-precision `mpz` integers
of the arithmetic plugin are embedded as `Int`.
-/

namespace K0

/-- Universe level expressions, following the spec's `level` form:
`Zero`, `Succ(level)`, `Max(level,level)`, `UVar(name)`. -/
inductive Level where
  | zero
  | succ (l : Level)
  | lmax (a b : Level)
  | uvar (n : String)
deriving DecidableEq

/-- Add a natural offset to a level (`level() + k` of the sources). -/
def Level.add : Level → Nat → Level
  | l, 0 => l
  | l, n + 1 => .succ (Level.add l n)

/-- Value plugins of the arithmetic library (`library/arith`): the `int`
type, integer literals backed by `mpz`, boolean values, the four binary
integer operators and `<=`.  Each embeds the payload the corresponding
C++ `value` subclass carries. -/
inductive Value where
  | intType
  | boolType
  | boolVal (b : Bool)
  | intVal (v : Int)
  | intAdd
  | intSub
  | intMul
  | intDiv
  | intLe
deriving DecidableEq

mutual
/-- Kernel expressions (`kernel/expr.h`).  Applications are n-ary: the
first list entry is the function.  `Constant` carries the name and an
optional cached type (recursed into by `max_sharing`).  Binders carry a
name hint that alpha-equality ignores.  Metavariables carry a local-entry
substitution list. -/
inductive Expr where
  | var (idx : Nat)
  | const (nm : String) (ty : Option Expr)
  | type (l : Level)
  | value (v : Value)
  | app (args : List Expr)
  | lam (nm : String) (dom body : Expr)
  | pi (nm : String) (dom body : Expr)
  | sigma (nm : String) (dom body : Expr)
  | pair (pfst psnd pty : Expr)
  | proj (pfst : Bool) (parg : Expr)
  | letE (nm : String) (ty : Option Expr) (val body : Expr)
  | heq (lhs rhs : Expr)
  | metavar (midx : Nat) (lctx : List LocalEntry)

/-- Metavariable local entries: `Lift(s, n)` or `Inst(s, v)`. -/
inductive LocalEntry where
  | lift (s n : Nat)
  | inst (s : Nat) (v : Expr)
end

/-- `is_lambda`. -/
def Expr.isLambda : Expr → Bool
  | .lam _ _ _ => true
  | _ => false

/-- `is_app`. -/
def Expr.isApp : Expr → Bool
  | .app _ => true
  | _ => false

/-- `mk_app`.  Modelled from the spec: applications are stored n-ary, so
building an application whose head is itself an application flattens the
two argument lists (`kernel/expr.cpp` is not part of the sources under
review); an application of a head to no arguments is the head itself. -/
def mkApp (args : List Expr) : Expr :=
  match args with
  | [] => .app []
  | f :: rest =>
    match rest with
    | [] => f
    | _ =>
      match f with
      | .app fargs => .app (fargs ++ rest)
      | _ => .app (f :: rest)

/-- `mk_int_value` (`library/arith/int.cpp`). -/
def mkIntValue (v : Int) : Expr := .value (.intVal v)

/-- `is_int_value` (`library/arith/int.cpp`). -/
def isIntValue : Expr → Bool
  | .value (.intVal _) => true
  | _ => false

/-- `int_value_numeral`; total with default `0` (the source asserts
`is_int_value`). -/
def intValueNumeral : Expr → Int
  | .value (.intVal v) => v
  | _ => 0

/-- `int_bin_op<Name, Hash, F>::normalize` (`library/arith/int.cpp`):
the hook produces a value exactly when it receives three entries (the
operator itself plus two arguments) whose second and third entries are
integer literals; the result is the literal of `F` applied to the two
numerals.  `Option` stands for the C++ boolean return plus out-parameter. -/
def intBinOpNormalize (F : Int → Int → Int) (args : List Expr) : Option Expr :=
  if args.length = 3 ∧ isIntValue (args.getD 1 (.var 0)) ∧ isIntValue (args.getD 2 (.var 0)) then
    some (mkIntValue (F (intValueNumeral (args.getD 1 (.var 0))) (intValueNumeral (args.getD 2 (.var 0)))))
  else
    none

/-- `int_le_value::normalize` (`library/arith/int.cpp`). -/
def intLeNormalize (args : List Expr) : Option Expr :=
  if args.length = 3 ∧ isIntValue (args.getD 1 (.var 0)) ∧ isIntValue (args.getD 2 (.var 0)) then
    some (.value (.boolVal (intValueNumeral (args.getD 1 (.var 0)) ≤ intValueNumeral (args.getD 2 (.var 0)))))
  else
    none

/-- The `normalize` virtual dispatch over the value plugins of
`library/arith/int.cpp`: the four binary operators normalize via
`int_bin_op::normalize` with their exact `mpz` semantics (`/` on `mpz` is
truncated division, `Int.tdiv`); `int_type`, `int_num` and boolean values
always answer `false` (`none`). -/
def valueNormalize : Value → List Expr → Option Expr
  | .intAdd, args => intBinOpNormalize (fun a b => a + b) args
  | .intSub, args => intBinOpNormalize (fun a b => a - b) args
  | .intMul, args => intBinOpNormalize (fun a b => a * b) args
  | .intDiv, args => intBinOpNormalize (fun a b => Int.tdiv a b) args
  | .intLe, args => intLeNormalize args
  | _, _ => none

/-- `value::get_type` over the arithmetic plugins: `int : Type`,
`bool : Type`, numerals `: int`, booleans `: bool`, binary operators
`: int -> int -> int`, `<= : int -> int -> bool`. -/
def valueType : Value → Expr
  | .intType => .type .zero
  | .boolType => .type .zero
  | .boolVal _ => .value .boolType
  | .intVal _ => .value .intType
  | .intLe => .pi "_" (.value .intType) (.pi "_" (.value .intType) (.value .boolType))
  | _ => .pi "_" (.value .intType) (.pi "_" (.value .intType) (.value .intType))

mutual
/-- Free-variable query, `has_free_var`-style (the cached free-variable
range of `kernel/free_vars.cpp` is not part of the sources under review).
Modelled from the spec: `freeVarsBelow c e` holds when every free variable
of `e` has index `< c` (the cached range satisfies `hi <= c`); binders
shift the bound by one for their body; a metavariable may stand for
anything, so it never counts as having its free variables below `c`;
constant cached types are closed by construction. -/
def freeVarsBelow (c : Nat) : Expr → Bool
  | .var i => decide (i < c)
  | .const _ _ => true
  | .type _ => true
  | .value _ => true
  | .app args => freeVarsBelowList c args
  | .lam _ d b => freeVarsBelow c d && freeVarsBelow (c + 1) b
  | .pi _ d b => freeVarsBelow c d && freeVarsBelow (c + 1) b
  | .sigma _ d b => freeVarsBelow c d && freeVarsBelow (c + 1) b
  | .pair f s t => freeVarsBelow c f && freeVarsBelow c s && freeVarsBelow c t
  | .proj _ a => freeVarsBelow c a
  | .letE _ ty v b => freeVarsBelowOpt c ty && freeVarsBelow c v && freeVarsBelow (c + 1) b
  | .heq l r => freeVarsBelow c l && freeVarsBelow c r
  | .metavar _ _ => false

/-- `freeVarsBelow` on an optional sub-expression (absent `let` type). -/
def freeVarsBelowOpt (c : Nat) : Option Expr → Bool
  | none => true
  | some e => freeVarsBelow c e

/-- `freeVarsBelow` on an argument list. -/
def freeVarsBelowList (c : Nat) : List Expr → Bool
  | [] => true
  | e :: es => freeVarsBelow c e && freeVarsBelowList c es
end

/-- `has_free_var(e, 0, numeric_limits::max())` of the
`instantiate_with_closed` assertion: `e` mentions some free variable (or a
metavariable, whose eventual value is unknown). -/
def hasAnyFreeVar (e : Expr) : Bool := ! freeVarsBelow 0 e

mutual
/-- Structural core of `lift_free_vars(e, s, d)` (`kernel/free_vars.cpp`
is not part of the sources under review).  Modelled from the spec: add `d`
to every free `Var(i)` with `i ≥ s`, recursing under binders with the
cutoff incremented; on a metavariable the shift is recorded as a `Lift`
local entry instead of being applied. -/
def liftCore (s d : Nat) : Expr → Expr
  | .var i => if i < s then .var i else .var (i + d)
  | .const nm ty => .const nm ty
  | .type l => .type l
  | .value v => .value v
  | .app args => .app (liftCoreList s d args)
  | .lam nm dm b => .lam nm (liftCore s d dm) (liftCore (s + 1) d b)
  | .pi nm dm b => .pi nm (liftCore s d dm) (liftCore (s + 1) d b)
  | .sigma nm dm b => .sigma nm (liftCore s d dm) (liftCore (s + 1) d b)
  | .pair f sc t => .pair (liftCore s d f) (liftCore s d sc) (liftCore s d t)
  | .proj p a => .proj p (liftCore s d a)
  | .letE nm ty v b => .letE nm (liftCoreOpt s d ty) (liftCore s d v) (liftCore (s + 1) d b)
  | .heq l r => .heq (liftCore s d l) (liftCore s d r)
  | .metavar m lctx => .metavar m (.lift s d :: lctx)

/-- `liftCore` on an optional sub-expression. -/
def liftCoreOpt (s d : Nat) : Option Expr → Option Expr
  | none => none
  | some e => some (liftCore s d e)

/-- `liftCore` on an argument list. -/
def liftCoreList (s d : Nat) : List Expr → List Expr
  | [] => []
  | e :: es => liftCore s d e :: liftCoreList s d es
end

/-- `lift_free_vars(e, s, d)`.  Modelled from the spec: the
free-variable-range-aware short circuit returns `e` unchanged when the
offset is zero or when `e` has no free variable at or above the cutoff. -/
def lift_free_vars (e : Expr) (s d : Nat) : Expr :=
  if d = 0 ∨ freeVarsBelow s e = true then e else liftCore s d e

/-- `add_inst` (`kernel/metavar.cpp` is not part of the sources under
review).  Modelled from the spec: the substitution is recorded as a
`LocalEntry::Inst` on the metavariable's local context rather than applied
eagerly; entries are applied right-to-left, so a new entry is pushed at the
front.  On a non-metavariable it is the identity. -/
def addInst (m : Expr) (s : Nat) (v : Expr) : Expr :=
  match m with
  | .metavar i lctx => .metavar i (.inst s v :: lctx)
  | e => e

/-- The `is_metavar(m)` branch of `instantiate_core`
(`kernel/instantiate.cpp` lines 32-38): the loop over `i = 0..n-1`
records each substituted term (lifted by `offset + n - i - 1` in the
general variant) as an `Inst` entry at index `offset + s + n - i - 1`. -/
def instMVar (closedSubst : Bool) (s : Nat) (subst : List Expr) (off : Nat) (m : Expr) : Expr :=
  (List.range subst.length).foldl
    (fun r i =>
      let v := if closedSubst then subst.getD i (.var 0)
               else lift_free_vars (subst.getD i (.var 0)) 0 (off + subst.length - i - 1)
      addInst r (off + s + subst.length - i - 1) v) m

mutual
/-- `instantiate_core<ClosedSubst>(a, s, n, subst, menv)`
(`kernel/instantiate.cpp` lines 15-43).  The `replace` traversal skeleton
(`kernel/replace_fn.h` is not part of the sources under review) is
modelled from the spec: the function is applied at every node with
`offset` equal to the number of binders crossed, the traversal descending
structurally and stopping where the function rewrites the node (variables
and metavariables); constants are leaves of the traversal.  The `Var` and
`MetaVar` cases are the source's, with `n = subst.length`. -/
def instantiate_core (closedSubst : Bool) (s : Nat) (subst : List Expr) : Expr → Nat → Expr
  | .var vidx, off =>
      let n := subst.length
      if vidx ≥ off + s then
        if vidx < off + s + n then
          if closedSubst then subst.getD (n - (vidx - s - off) - 1) (.var 0)
          else lift_free_vars (subst.getD (n - (vidx - s - off) - 1) (.var 0)) 0 off
        else .var (vidx - n)
      else .var vidx
  | .metavar m lctx, off => instMVar closedSubst s subst off (.metavar m lctx)
  | .const nm ty, _ => .const nm ty
  | .type l, _ => .type l
  | .value v, _ => .value v
  | .app args, off => .app (instantiateCoreList closedSubst s subst args off)
  | .lam nm dm b, off =>
      .lam nm (instantiate_core closedSubst s subst dm off)
              (instantiate_core closedSubst s subst b (off + 1))
  | .pi nm dm b, off =>
      .pi nm (instantiate_core closedSubst s subst dm off)
             (instantiate_core closedSubst s subst b (off + 1))
  | .sigma nm dm b, off =>
      .sigma nm (instantiate_core closedSubst s subst dm off)
               (instantiate_core closedSubst s subst b (off + 1))
  | .pair f sc t, off =>
      .pair (instantiate_core closedSubst s subst f off)
            (instantiate_core closedSubst s subst sc off)
            (instantiate_core closedSubst s subst t off)
  | .proj p a, off => .proj p (instantiate_core closedSubst s subst a off)
  | .letE nm ty v b, off =>
      .letE nm (instantiateCoreOpt closedSubst s subst ty off)
               (instantiate_core closedSubst s subst v off)
               (instantiate_core closedSubst s subst b (off + 1))
  | .heq l r, off =>
      .heq (instantiate_core closedSubst s subst l off)
           (instantiate_core closedSubst s subst r off)

/-- `instantiate_core` on an optional sub-expression. -/
def instantiateCoreOpt (closedSubst : Bool) (s : Nat) (subst : List Expr) :
    Option Expr → Nat → Option Expr
  | none, _ => none
  | some e, off => some (instantiate_core closedSubst s subst e off)

/-- `instantiate_core` on an argument list. -/
def instantiateCoreList (closedSubst : Bool) (s : Nat) (subst : List Expr) :
    List Expr → Nat → List Expr
  | [], _ => []
  | e :: es, off =>
      instantiate_core closedSubst s subst e off :: instantiateCoreList closedSubst s subst es off
end

/-- `instantiate(a, s, n, subst, menv)` (`kernel/instantiate.cpp` line
56): the general variant, `instantiate_core<false>`. -/
def instantiate (e : Expr) (s : Nat) (subst : List Expr) : Expr :=
  instantiate_core false s subst e 0

/-- `instantiate_with_closed(a, n, s, menv)` (`kernel/instantiate.cpp`
line 45): the closed-substitution fast path, `instantiate_core<true>` at
start `0`. -/
def instantiate_with_closed (e : Expr) (subst : List Expr) : Expr :=
  instantiate_core true 0 subst e 0

mutual
/-- The `has_metavar` bit: the expression contains a metavariable. -/
def hasMetavarB : Expr → Bool
  | .var _ => false
  | .const _ _ => false
  | .type _ => false
  | .value _ => false
  | .app args => hasMetavarList args
  | .lam _ d b => hasMetavarB d || hasMetavarB b
  | .pi _ d b => hasMetavarB d || hasMetavarB b
  | .sigma _ d b => hasMetavarB d || hasMetavarB b
  | .pair f s t => hasMetavarB f || hasMetavarB s || hasMetavarB t
  | .proj _ a => hasMetavarB a
  | .letE _ ty v b => hasMetavarOpt ty || hasMetavarB v || hasMetavarB b
  | .heq l r => hasMetavarB l || hasMetavarB r
  | .metavar _ _ => true

/-- `hasMetavarB` on an optional sub-expression. -/
def hasMetavarOpt : Option Expr → Bool
  | none => false
  | some e => hasMetavarB e

/-- `hasMetavarB` on an argument list. -/
def hasMetavarList : List Expr → Bool
  | [] => false
  | e :: es => hasMetavarB e || hasMetavarList es
end

/-- The action claim C1 ascribes to `instantiate` on a variable node met
at binder depth `d` (written from the claim's words, as the comparison
definition for this claim): a variable with index `< s` (or bound, index
`< d`) is unchanged; a free occurrence of `Var(s+i)` with `i ∈ [0,n)` is
replaced by `subst[n-1-i]` lifted by the number `d` of binders crossed;
the index of every free variable `≥ s+n` is decremented by `n`. -/
def claimInstVar (s : Nat) (subst : List Expr) (d vidx : Nat) : Expr :=
  let n := subst.length
  if vidx < d + s then .var vidx
  else if vidx - d - s < n then
    lift_free_vars (subst.getD (n - 1 - (vidx - d - s)) (.var 0)) 0 d
  else .var (vidx - (n : Nat))

mutual
/-- The behaviour claim C1 ascribes to `instantiate`, as a structural
traversal applying `claimInstVar` to every variable with the number of
binders crossed (written from the claim's words).  The claim says nothing
about metavariables, so they are left untouched here and the comparison
theorem is restricted to metavariable-free expressions. -/
def claimInstantiate (s : Nat) (subst : List Expr) : Expr → Nat → Expr
  | .var vidx, d => claimInstVar s subst d vidx
  | .metavar m lctx, _ => .metavar m lctx
  | .const nm ty, _ => .const nm ty
  | .type l, _ => .type l
  | .value v, _ => .value v
  | .app args, d => .app (claimInstantiateList s subst args d)
  | .lam nm dm b, d => .lam nm (claimInstantiate s subst dm d) (claimInstantiate s subst b (d + 1))
  | .pi nm dm b, d => .pi nm (claimInstantiate s subst dm d) (claimInstantiate s subst b (d + 1))
  | .sigma nm dm b, d =>
      .sigma nm (claimInstantiate s subst dm d) (claimInstantiate s subst b (d + 1))
  | .pair f sc t, d =>
      .pair (claimInstantiate s subst f d) (claimInstantiate s subst sc d)
            (claimInstantiate s subst t d)
  | .proj p a, d => .proj p (claimInstantiate s subst a d)
  | .letE nm ty v b, d =>
      .letE nm (claimInstantiateOpt s subst ty d) (claimInstantiate s subst v d)
               (claimInstantiate s subst b (d + 1))
  | .heq l r, d => .heq (claimInstantiate s subst l d) (claimInstantiate s subst r d)

/-- `claimInstantiate` on an optional sub-expression. -/
def claimInstantiateOpt (s : Nat) (subst : List Expr) : Option Expr → Nat → Option Expr
  | none, _ => none
  | some e, d => some (claimInstantiate s subst e d)

/-- `claimInstantiate` on an argument list. -/
def claimInstantiateList (s : Nat) (subst : List Expr) : List Expr → Nat → List Expr
  | [], _ => []
  | e :: es, d => claimInstantiate s subst e d :: claimInstantiateList s subst es d
end

theorem instantiate_core_var_claim (s : Nat) (subst : List Expr) (off vidx : Nat) :
    instantiate_core false s subst (.var vidx) off = claimInstantiate s subst (.var vidx) off := by
  simp only [instantiate_core, claimInstantiate, claimInstVar]
  by_cases h1 : vidx ≥ off + s
  · by_cases h2 : vidx < off + s + subst.length
    · rw [if_pos h1, if_pos h2, if_neg (by omega : ¬ vidx < off + s),
        if_pos (by omega : vidx - off - s < subst.length)]
      simp only [Bool.false_eq_true, if_false]
      congr 2
      omega
    · rw [if_pos h1, if_neg h2, if_neg (by omega : ¬ vidx < off + s),
        if_neg (by omega : ¬ vidx - off - s < subst.length)]
  · rw [if_neg h1, if_pos (by omega : vidx < off + s)]

theorem instantiate_core_claim_aux (s : Nat) (subst : List Expr) :
    ∀ e off, hasMetavarB e = false →
      instantiate_core false s subst e off = claimInstantiate s subst e off := by
  refine instantiate_core.induct false s subst
    (fun e off => hasMetavarB e = false →
      instantiate_core false s subst e off = claimInstantiate s subst e off)
    (fun oe off => hasMetavarOpt oe = false →
      instantiateCoreOpt false s subst oe off = claimInstantiateOpt s subst oe off)
    (fun es off => hasMetavarList es = false →
      instantiateCoreList false s subst es off = claimInstantiateList s subst es off)
    ?_ ?_ ?_ ?_ ?_ ?_ ?_ ?_ ?_ ?_ ?_ ?_ ?_ ?_ ?_ ?_ ?_ ?_ ?_ ?_ <;>
  · intros
    first
      | exact fun _ => instantiate_core_var_claim s subst _ _
      | simp_all [hasMetavarB, hasMetavarOpt, hasMetavarList,
          instantiate_core, instantiateCoreOpt, instantiateCoreList,
          claimInstantiate, claimInstantiateOpt, claimInstantiateList]

/-- Claim C1: the general `instantiate(e, s, n, subst)` (on expressions
without metavariables, the only ones the claim describes) replaces each
free occurrence of `Var(s+i)`, `i ∈ [0,n)`, by `subst[n-1-i]` lifted by
the number of binders crossed, decrements by `n` the index of every free
variable `≥ s+n`, and leaves every variable of index `< s` unchanged:
it coincides with the traversal `claimInstantiate` written from those
words. -/
theorem instantiate_general_spec (e : Expr) (s : Nat) (subst : List Expr)
    (h : hasMetavarB e = false) :
    instantiate e s subst = claimInstantiate s subst e 0 :=
  instantiate_core_claim_aux s subst e 0 h

/-- Witness for `instantiate_general_spec` at a concrete input: two
substituted terms under one binder. -/
theorem instantiate_general_spec_witness :
    hasMetavarB (Expr.lam "x" (.value .intType) (.app [.var 0, .var 1, .var 2, .var 4])) = false ∧
    instantiate (Expr.lam "x" (.value .intType) (.app [.var 0, .var 1, .var 2, .var 4])) 0
        [.value (.intVal 7), .var 0] =
      claimInstantiate 0 [.value (.intVal 7), .var 0]
        (Expr.lam "x" (.value .intType) (.app [.var 0, .var 1, .var 2, .var 4])) 0 :=
  ⟨rfl, instantiate_general_spec _ 0 _ rfl⟩

theorem lift_free_vars_closed (x : Expr) (d : Nat) (h : hasAnyFreeVar x = false) :
    lift_free_vars x 0 d = x := by
  unfold hasAnyFreeVar at h
  simp only [Bool.not_eq_false'] at h
  simp [lift_free_vars, h]

theorem getD_mem_of_lt {l : List Expr} {i : Nat} (h : i < l.length) (d : Expr) :
    l.getD i d ∈ l := by
  rw [List.getD_eq_getElem l d h]
  exact List.getElem_mem h

theorem foldl_step_congr (l : List Nat) (f g : Expr → Nat → Expr)
    (h : ∀ m i, i ∈ l → f m i = g m i) : ∀ m, l.foldl f m = l.foldl g m := by
  induction l with
  | nil => intro m; rfl
  | cons a t ih =>
    intro m
    simp only [List.foldl_cons]
    rw [h m a (by simp)]
    exact ih (fun m i hi => h m i (by simp [hi])) _

theorem instMVar_closed (s : Nat) (subst : List Expr) (off : Nat) (m : Expr)
    (hc : ∀ x ∈ subst, hasAnyFreeVar x = false) :
    instMVar true s subst off m = instMVar false s subst off m := by
  unfold instMVar
  apply foldl_step_congr
  intro r i hi
  have hi' : i < subst.length := List.mem_range.mp hi
  simp only [if_true, if_false, Bool.false_eq_true]
  rw [lift_free_vars_closed _ _ (hc _ (getD_mem_of_lt hi' _))]

theorem instantiate_core_var_closed (s : Nat) (subst : List Expr)
    (hc : ∀ x ∈ subst, hasAnyFreeVar x = false) (off vidx : Nat) :
    instantiate_core true s subst (.var vidx) off =
      instantiate_core false s subst (.var vidx) off := by
  simp only [instantiate_core]
  by_cases h1 : vidx ≥ off + s
  · by_cases h2 : vidx < off + s + subst.length
    · rw [if_pos h1, if_pos h2, if_pos h1, if_pos h2]
      simp only [if_true, Bool.false_eq_true, if_false]
      rw [lift_free_vars_closed _ _ (hc _ (getD_mem_of_lt (by omega) _))]
    · simp [h1, h2]
  · simp [h1]

theorem instantiate_core_closed_aux (s : Nat) (subst : List Expr)
    (hc : ∀ x ∈ subst, hasAnyFreeVar x = false) :
    ∀ e off, instantiate_core true s subst e off = instantiate_core false s subst e off := by
  refine instantiate_core.induct true s subst
    (fun e off => instantiate_core true s subst e off = instantiate_core false s subst e off)
    (fun oe off =>
      instantiateCoreOpt true s subst oe off = instantiateCoreOpt false s subst oe off)
    (fun es off =>
      instantiateCoreList true s subst es off = instantiateCoreList false s subst es off)
    ?_ ?_ ?_ ?_ ?_ ?_ ?_ ?_ ?_ ?_ ?_ ?_ ?_ ?_ ?_ ?_ ?_ ?_ ?_ ?_ <;>
  · intros
    first
      | exact instantiate_core_var_closed s subst hc _ _
      | exact instMVar_closed s subst _ _ hc
      | simp_all [instantiate_core, instantiateCoreOpt, instantiateCoreList]

/-- Claim C9: on an array of closed substituted expressions (no free
variables, and no metavariables whose eventual value could have free
variables), the fast path `instantiate_with_closed(e, n, s)` — which skips
lifting the substituted terms — returns the same expression as the general
`instantiate(e, n, s)`. -/
theorem instantiate_with_closed_agrees (e : Expr) (subst : List Expr)
    (hc : ∀ x ∈ subst, hasAnyFreeVar x = false) :
    instantiate_with_closed e subst = instantiate e 0 subst :=
  instantiate_core_closed_aux 0 subst hc e 0

/-- Witness for `instantiate_with_closed_agrees` at a concrete input:
one closed substituted term under a binder, crossing into a metavariable. -/
theorem instantiate_with_closed_agrees_witness :
    (∀ x ∈ [mkIntValue 5], hasAnyFreeVar x = false) ∧
    instantiate_with_closed
        (Expr.lam "x" (.value .intType) (.app [.var 0, .var 1, .metavar 0 []]))
        [mkIntValue 5] =
      instantiate (Expr.lam "x" (.value .intType) (.app [.var 0, .var 1, .metavar 0 []]))
        0 [mkIntValue 5] := by
  have hc : ∀ x ∈ [mkIntValue 5], hasAnyFreeVar x = false := by
    intro x hx
    simp only [List.mem_singleton] at hx
    subst hx
    rfl
  exact ⟨hc, instantiate_with_closed_agrees _ _ hc⟩

/-- `abst_body`: the body of a binder (total; the sources assert the
argument is an abstraction). -/
def abst_body : Expr → Expr
  | .lam _ _ b => b
  | .pi _ _ b => b
  | .sigma _ _ b => b
  | e => e

/-- The `while` loop of `apply_beta` (`kernel/instantiate.cpp` lines
81-85): while the body of `f` is again a lambda and `m < num_args`,
replace `f` by its body and increment `m`. -/
def applyBetaLoop (numArgs : Nat) (f : Expr) (m : Nat) : Expr × Nat :=
  if (abst_body f).isLambda = true ∧ m < numArgs then
    applyBetaLoop numArgs (abst_body f) (m + 1)
  else (f, m)
termination_by numArgs - m
decreasing_by omega

/-- `apply_beta(f, num_args, args, menv)` (`kernel/instantiate.cpp` lines
74-98).  `none` models the failure of the assertion `m <= num_args` (after
which the source's `instantiate` call would read past the end of the
argument array): it occurs exactly when `f` is a lambda and no argument is
supplied. -/
def apply_beta (f : Expr) (args : List Expr) : Option Expr :=
  match f with
  | .lam nm d b =>
      let fm := applyBetaLoop args.length (.lam nm d b) 1
      if fm.2 ≤ args.length then
        let r := instantiate (abst_body fm.1) 0 (args.take fm.2)
        if fm.2 = args.length then some r else some (mkApp (r :: args.drop fm.2))
      else none
  | _ => some (mkApp (f :: args))

/-- Number of leading lambda binders (written from the claim's words). -/
def leadingLambdas : Expr → Nat
  | .lam _ _ b => leadingLambdas b + 1
  | _ => 0

/-- The body under the first `k` leading lambda binders (written from the
claim's words). -/
def stripLambdas : Expr → Nat → Expr
  | .lam _ _ b, k + 1 => stripLambdas b k
  | e, _ => e

/-- The behaviour claim C2 ascribes to `apply_beta` (written from the
claim's words): on a lambda, instantiate the body under the leading
lambdas with as many arguments as there are leading lambdas, at most the
number of arguments; excess arguments form a residual application around
the instantiated body; with fewer arguments than leading lambdas the
result is the partially-applied residual lambda.  On a non-lambda, the
arguments are simply applied. -/
def claimApplyBeta (f : Expr) (args : List Expr) : Expr :=
  if f.isLambda then
    let m := min (leadingLambdas f) args.length
    let r := instantiate (stripLambdas f m) 0 (args.take m)
    if args.length ≤ m then r else mkApp (r :: args.drop m)
  else mkApp (f :: args)

theorem leadingLambdas_body (f : Expr) (h : f.isLambda = true) :
    leadingLambdas f = leadingLambdas (abst_body f) + 1 := by
  cases f <;> simp_all [Expr.isLambda, leadingLambdas, abst_body]

theorem stripLambdas_body (f : Expr) (h : f.isLambda = true) (k : Nat) :
    stripLambdas f (k + 1) = stripLambdas (abst_body f) k := by
  cases f <;> simp_all [Expr.isLambda, stripLambdas, abst_body]

theorem leadingLambdas_of_not_lambda (f : Expr) (h : f.isLambda = false) :
    leadingLambdas f = 0 := by
  cases f <;> simp_all [Expr.isLambda, leadingLambdas]

theorem applyBetaLoop_spec (numArgs : Nat) :
    ∀ f m0, f.isLambda = true → m0 ≤ numArgs →
      (applyBetaLoop numArgs f m0).2 = m0 + min (leadingLambdas f - 1) (numArgs - m0) ∧
      abst_body (applyBetaLoop numArgs f m0).1 =
        stripLambdas f (min (leadingLambdas f - 1) (numArgs - m0) + 1) := by
  refine applyBetaLoop.induct numArgs
    (fun f m0 => f.isLambda = true → m0 ≤ numArgs →
      (applyBetaLoop numArgs f m0).2 = m0 + min (leadingLambdas f - 1) (numArgs - m0) ∧
      abst_body (applyBetaLoop numArgs f m0).1 =
        stripLambdas f (min (leadingLambdas f - 1) (numArgs - m0) + 1))
    ?_ ?_
  · intro f m hc ih hlam hle
    have ih' := ih hc.1 (by omega)
    rw [applyBetaLoop, if_pos hc]
    have hLf := leadingLambdas_body f hlam
    have hLb : 1 ≤ leadingLambdas (abst_body f) := by
      have := leadingLambdas_body (abst_body f) hc.1
      omega
    have hmin : min (leadingLambdas f - 1) (numArgs - m) =
        min (leadingLambdas (abst_body f) - 1) (numArgs - (m + 1)) + 1 := by
      omega
    constructor
    · rw [ih'.1]
      omega
    · rw [ih'.2, hmin, stripLambdas_body f hlam]
  · intro f m hc hlam hle
    rw [applyBetaLoop, if_neg hc]
    have hmin : min (leadingLambdas f - 1) (numArgs - m) = 0 := by
      rcases Decidable.not_and_iff_or_not.mp hc with h | h
      · have hb : (abst_body f).isLambda = false := by
          cases hbl : (abst_body f).isLambda
          · rfl
          · exact absurd hbl h
        have := leadingLambdas_of_not_lambda (abst_body f) hb
        have := leadingLambdas_body f hlam
        omega
      · omega
    rw [hmin]
    refine ⟨by omega, ?_⟩
    rw [stripLambdas_body f hlam]
    cases abst_body f <;> simp [stripLambdas]

/-- Counterexample to claim C2 as stated: `apply_beta` does fail when `f`
is a lambda and the argument list is empty — the loop leaves `m = 1`, the
assertion `m <= num_args` is violated, and the subsequent `instantiate`
call would read past the end of the empty argument array. -/
theorem apply_beta_fails_on_no_args :
    apply_beta (.lam "x" (.value .intType) (.var 0)) [] = none := by
  simp [apply_beta, applyBetaLoop, abst_body, Expr.isLambda]

/-- Claim C2 (amended): provided at least one argument is supplied when
`f` is a lambda (the kernel's callers always supply one), `apply_beta`
never fails and behaves as the claim states: it instantiates the body
under the leading lambdas with as many arguments as there are leading
lambdas (at most the number of arguments); excess arguments form a
residual application around the instantiated body; fewer arguments than
leading lambdas yield a partially-applied residual lambda. -/
theorem apply_beta_claim (f : Expr) (args : List Expr)
    (h : f.isLambda = false ∨ args ≠ []) :
    apply_beta f args = some (claimApplyBeta f args) := by
  cases hl : f.isLambda with
  | false =>
    match f, hl with
    | .var i, _ => simp [apply_beta, claimApplyBeta, Expr.isLambda]
    | .const nm ty, _ => simp [apply_beta, claimApplyBeta, Expr.isLambda]
    | .type l, _ => simp [apply_beta, claimApplyBeta, Expr.isLambda]
    | .value v, _ => simp [apply_beta, claimApplyBeta, Expr.isLambda]
    | .app as, _ => simp [apply_beta, claimApplyBeta, Expr.isLambda]
    | .pi nm d b, _ => simp [apply_beta, claimApplyBeta, Expr.isLambda]
    | .sigma nm d b, _ => simp [apply_beta, claimApplyBeta, Expr.isLambda]
    | .pair a b c, _ => simp [apply_beta, claimApplyBeta, Expr.isLambda]
    | .proj p a, _ => simp [apply_beta, claimApplyBeta, Expr.isLambda]
    | .letE nm ty v b, _ => simp [apply_beta, claimApplyBeta, Expr.isLambda]
    | .heq a b, _ => simp [apply_beta, claimApplyBeta, Expr.isLambda]
    | .metavar i l, _ => simp [apply_beta, claimApplyBeta, Expr.isLambda]
  | true =>
    have ha : 1 ≤ args.length := by
      rcases h with h | h
      · rw [hl] at h
        simp at h
      · cases args with
        | nil => exact absurd rfl h
        | cons a t => simp
    obtain ⟨h2, h1⟩ := applyBetaLoop_spec args.length f 1 hl ha
    match f, hl with
    | .lam nm d b, hl =>
      have hLf : leadingLambdas (Expr.lam nm d b) = leadingLambdas b + 1 := by
        simp [leadingLambdas]
      have hm : 1 + min (leadingLambdas (Expr.lam nm d b) - 1) (args.length - 1) =
          min (leadingLambdas (Expr.lam nm d b)) args.length := by
        omega
      have hm1 : (leadingLambdas (Expr.lam nm d b) - 1) ⊓ (args.length - 1) + 1 =
          leadingLambdas (Expr.lam nm d b) ⊓ args.length := by
        omega
      rw [hm1] at h1
      simp only [apply_beta, claimApplyBeta, Expr.isLambda, if_pos]
      rw [h2, h1, hm]
      have hle : min (leadingLambdas (Expr.lam nm d b)) args.length ≤ args.length :=
        Nat.min_le_right _ _
      rw [if_pos hle]
      by_cases heq : min (leadingLambdas (Expr.lam nm d b)) args.length = args.length
      · rw [if_pos heq, if_pos (by omega : args.length ≤ min (leadingLambdas (Expr.lam nm d b)) args.length)]
      · rw [if_neg heq, if_neg (by omega : ¬ args.length ≤ min (leadingLambdas (Expr.lam nm d b)) args.length)]

/-- Witness for `apply_beta_claim` at a concrete input: a two-lambda
function applied to three arguments (one excess argument). -/
theorem apply_beta_claim_witness :
    ((Expr.lam "x" (.value .intType) (.lam "y" (.value .intType) (.app [.var 1, .var 0]))).isLambda
        = false ∨
      ([mkIntValue 1, mkIntValue 2, mkIntValue 3] : List Expr) ≠ []) ∧
    apply_beta (Expr.lam "x" (.value .intType) (.lam "y" (.value .intType) (.app [.var 1, .var 0])))
        [mkIntValue 1, mkIntValue 2, mkIntValue 3] =
      some (claimApplyBeta
        (Expr.lam "x" (.value .intType) (.lam "y" (.value .intType) (.app [.var 1, .var 0])))
        [mkIntValue 1, mkIntValue 2, mkIntValue 3]) :=
  ⟨Or.inr (by simp), apply_beta_claim _ _ (Or.inr (by simp))⟩

theorem isIntValue_shape : ∀ {e : Expr}, isIntValue e = true → ∃ v, e = mkIntValue v
  | .value (.intVal v), _ => ⟨v, rfl⟩

/-- Claim C10: the normalize hook of a builtin integer binary operator
value produces a result iff it is called with exactly three entries (the
operator itself plus two arguments) whose second and third entries are
integer literals, in which case the result is the literal of the exact
arbitrary-precision result of the operation; otherwise it returns `false`
(`none`).  The hooks of `+`, `-`, `*` and `div` are `int_bin_op::normalize`
at exact `Int` addition, subtraction, multiplication and truncated
division. -/
theorem int_bin_op_normalize_spec :
    (∀ (F : Int → Int → Int) (args : List Expr) (r : Expr),
      intBinOpNormalize F args = some r ↔
        ∃ op a b, args = [op, mkIntValue a, mkIntValue b] ∧ r = mkIntValue (F a b)) ∧
    (∀ args, valueNormalize .intAdd args = intBinOpNormalize (fun a b => a + b) args) ∧
    (∀ args, valueNormalize .intSub args = intBinOpNormalize (fun a b => a - b) args) ∧
    (∀ args, valueNormalize .intMul args = intBinOpNormalize (fun a b => a * b) args) ∧
    (∀ args, valueNormalize .intDiv args = intBinOpNormalize (fun a b => Int.tdiv a b) args) := by
  refine ⟨?_, fun args => rfl, fun args => rfl, fun args => rfl, fun args => rfl⟩
  intro F args r
  constructor
  · intro h
    unfold intBinOpNormalize at h
    split at h
    · next hc =>
      rcases hc with ⟨h3, hi1, hi2⟩
      obtain ⟨x, y, z, rfl⟩ := List.length_eq_three.mp h3
      simp only [List.getD_cons_succ, List.getD_cons_zero] at h hi1 hi2
      obtain ⟨a, rfl⟩ := isIntValue_shape hi1
      obtain ⟨b, rfl⟩ := isIntValue_shape hi2
      refine ⟨x, a, b, rfl, ?_⟩
      simp only [mkIntValue, intValueNumeral] at h ⊢
      exact (Option.some.inj h).symm
    · exact absurd h (by simp)
  · rintro ⟨op, a, b, rfl, rfl⟩
    simp [intBinOpNormalize, isIntValue, mkIntValue, intValueNumeral]

mutual
/-- `expr_eq_fn::apply` (`kernel/expr_eq.h` lines 41-89) with the identity
normalizer: the structural (alpha) equality decision tree.  The pointer-
equality, hash-inequality and visited-set short circuits are caching
optimizations of the imperative implementation (their soundness is part of
claim C4's theorem); the decision structure per kind is translated here:
variables compare indices, constants compare names only, applications
compare argument lists pointwise (same `num_args`), binders compare domain
and body ignoring the name hint, `Type` compares levels, values compare
kind and payload, `let` compares optional type, value and body, and
metavariables compare names and local entries pointwise. -/
def alphaEq : Expr → Expr → Bool
  | .var i, .var j => i == j
  | .const n _, .const n' _ => n == n'
  | .type l, .type l' => l == l'
  | .value v, .value v' => v == v'
  | .app as, .app bs => alphaEqList as bs
  | .lam _ d b, .lam _ d' b' => alphaEq d d' && alphaEq b b'
  | .pi _ d b, .pi _ d' b' => alphaEq d d' && alphaEq b b'
  | .sigma _ d b, .sigma _ d' b' => alphaEq d d' && alphaEq b b'
  | .pair f s t, .pair f' s' t' => alphaEq f f' && alphaEq s s' && alphaEq t t'
  | .proj p a, .proj p' a' => (p == p') && alphaEq a a'
  | .letE _ ty v b, .letE _ ty' v' b' => alphaEqOpt ty ty' && alphaEq v v' && alphaEq b b'
  | .heq l r, .heq l' r' => alphaEq l l' && alphaEq r r'
  | .metavar m lctx, .metavar m' lctx' => (m == m') && alphaEqLctx lctx lctx'
  | _, _ => false

/-- `expr_eq_fn::apply` on optional sub-expressions: equal when both are
absent or both present and equal. -/
def alphaEqOpt : Option Expr → Option Expr → Bool
  | none, none => true
  | some a, some b => alphaEq a b
  | _, _ => false

/-- Pointwise `expr_eq_fn::apply` on argument lists (`num_args` must
agree). -/
def alphaEqList : List Expr → List Expr → Bool
  | [], [] => true
  | a :: as, b :: bs => alphaEq a b && alphaEqList as bs
  | _, _ => false

/-- Pointwise comparison of metavariable local entries: kinds and start
indices must agree; `Inst` entries compare their expressions, `Lift`
entries their offsets. -/
def alphaEqLctx : List LocalEntry → List LocalEntry → Bool
  | [], [] => true
  | .lift s n :: es, .lift s' n' :: es' => (s == s') && (n == n') && alphaEqLctx es es'
  | .inst s v :: es, .inst s' v' :: es' => (s == s') && alphaEq v v' && alphaEqLctx es es'
  | _, _ => false
end

mutual
/-- The canonical form alpha-equivalence compares (written from the spec's
words for claim C4): binder name hints — the components `expr_eq` skips —
are erased, as are the cached constant types the comparison never reads;
everything else is kept exactly. -/
def alphaCanon : Expr → Expr
  | .var i => .var i
  | .const n _ => .const n none
  | .type l => .type l
  | .value v => .value v
  | .app as => .app (alphaCanonList as)
  | .lam _ d b => .lam "" (alphaCanon d) (alphaCanon b)
  | .pi _ d b => .pi "" (alphaCanon d) (alphaCanon b)
  | .sigma _ d b => .sigma "" (alphaCanon d) (alphaCanon b)
  | .pair f s t => .pair (alphaCanon f) (alphaCanon s) (alphaCanon t)
  | .proj p a => .proj p (alphaCanon a)
  | .letE _ ty v b => .letE "" (alphaCanonOpt ty) (alphaCanon v) (alphaCanon b)
  | .heq l r => .heq (alphaCanon l) (alphaCanon r)
  | .metavar m lctx => .metavar m (alphaCanonLctx lctx)

/-- `alphaCanon` on an optional sub-expression. -/
def alphaCanonOpt : Option Expr → Option Expr
  | none => none
  | some e => some (alphaCanon e)

/-- `alphaCanon` on an argument list. -/
def alphaCanonList : List Expr → List Expr
  | [] => []
  | e :: es => alphaCanon e :: alphaCanonList es

/-- `alphaCanon` on metavariable local entries. -/
def alphaCanonLctx : List LocalEntry → List LocalEntry
  | [] => []
  | .lift s n :: es => .lift s n :: alphaCanonLctx es
  | .inst s v :: es => .inst s (alphaCanon v) :: alphaCanonLctx es
end

set_option maxHeartbeats 2000000 in
theorem alphaEq_iff_canon :
    ∀ a b, alphaEq a b = true ↔ alphaCanon a = alphaCanon b := by
  refine alphaCanon.induct
    (fun a => ∀ b, alphaEq a b = true ↔ alphaCanon a = alphaCanon b)
    (fun ls => ∀ ls', alphaEqLctx ls ls' = true ↔ alphaCanonLctx ls = alphaCanonLctx ls')
    (fun oa => ∀ ob, alphaEqOpt oa ob = true ↔ alphaCanonOpt oa = alphaCanonOpt ob)
    (fun as => ∀ bs, alphaEqList as bs = true ↔ alphaCanonList as = alphaCanonList bs)
    ?_ ?_ ?_ ?_ ?_ ?_ ?_ ?_ ?_ ?_ ?_ ?_ ?_ ?_ ?_ ?_ ?_ ?_ ?_ ?_ <;>
  · intros
    intro b
    cases b <;>
      (try (rename_i h t; cases h)) <;>
      simp_all [alphaEq, alphaEqOpt, alphaEqList, alphaEqLctx,
        alphaCanon, alphaCanonOpt, alphaCanonList, alphaCanonLctx, and_assoc]

/-- Hash mixing (`util/hash.h` is not part of the sources under review).
Modelled from the spec: an injective-enough combination of a tag and a
payload. -/
def mixHash (a b : Nat) : Nat := a * 1000003 + b

/-- Hash of a universe level (modelled from the spec). -/
def levelHash : Level → Nat
  | .zero => 0
  | .succ l => mixHash 1 (levelHash l)
  | .lmax a b => mixHash 2 (mixHash (levelHash a) (levelHash b))
  | .uvar n => mixHash 3 n.length

/-- Hash of a value plugin: the literal operator hashes of
`library/arith/int.cpp` (41, 43, 47, 53, 61, 67), the numeral hash on the
payload. -/
def valueHash : Value → Nat
  | .intType => 41
  | .boolType => 39
  | .boolVal b => if b then 2 else 3
  | .intVal v => mixHash 5 (2 * v.natAbs + if v < 0 then 1 else 0)
  | .intAdd => 43
  | .intSub => 47
  | .intMul => 53
  | .intDiv => 61
  | .intLe => 67

mutual
/-- The cached structural hash.  Modelled from the spec:
`hash = mix(constructor_tag, children_hashes, payload_hash)`; by spec
invariant 3 (hash inequality short-circuits structural equality, which
ignores binder name hints) the name hints and the cached constant types do
not enter the hash. -/
def ehash : Expr → Nat
  | .var i => mixHash 1 i
  | .const n _ => mixHash 2 n.length
  | .type l => mixHash 3 (levelHash l)
  | .value v => mixHash 4 (valueHash v)
  | .app as => mixHash 5 (ehashList as)
  | .lam _ d b => mixHash 6 (mixHash (ehash d) (ehash b))
  | .pi _ d b => mixHash 7 (mixHash (ehash d) (ehash b))
  | .sigma _ d b => mixHash 8 (mixHash (ehash d) (ehash b))
  | .pair f s t => mixHash 9 (mixHash (ehash f) (mixHash (ehash s) (ehash t)))
  | .proj p a => mixHash (if p then 10 else 11) (ehash a)
  | .letE _ ty v b => mixHash 12 (mixHash (ehashOpt ty) (mixHash (ehash v) (ehash b)))
  | .heq l r => mixHash 13 (mixHash (ehash l) (ehash r))
  | .metavar m lctx => mixHash 14 (mixHash m (ehashLctx lctx))

/-- `ehash` of an optional sub-expression. -/
def ehashOpt : Option Expr → Nat
  | none => 0
  | some e => mixHash 15 (ehash e)

/-- `ehash` of an argument list. -/
def ehashList : List Expr → Nat
  | [] => 0
  | e :: es => mixHash (ehash e) (ehashList es)

/-- `ehash` of metavariable local entries. -/
def ehashLctx : List LocalEntry → Nat
  | [] => 0
  | .lift s n :: es => mixHash 16 (mixHash s (mixHash n (ehashLctx es)))
  | .inst s v :: es => mixHash 17 (mixHash s (mixHash (ehash v) (ehashLctx es)))
end

theorem ehash_canon : ∀ e, ehash (alphaCanon e) = ehash e := by
  refine alphaCanon.induct
    (fun e => ehash (alphaCanon e) = ehash e)
    (fun ls => ehashLctx (alphaCanonLctx ls) = ehashLctx ls)
    (fun oe => ehashOpt (alphaCanonOpt oe) = ehashOpt oe)
    (fun es => ehashList (alphaCanonList es) = ehashList es)
    ?_ ?_ ?_ ?_ ?_ ?_ ?_ ?_ ?_ ?_ ?_ ?_ ?_ ?_ ?_ ?_ ?_ ?_ ?_ ?_ <;>
  · intros
    simp_all [alphaCanon, alphaCanonOpt, alphaCanonList, alphaCanonLctx,
      ehash, ehashOpt, ehashList, ehashLctx]

/-- Claim C4: the structural equality test `expr_eq_fn` decides
alpha-equivalence — it is characterized by equality of the name-erased
canonical forms (exact on constant names, variable indices, application
arguments, levels, values, metavariable names and local entries, ignoring
binder name hints); it is reflexive, so answering `true` on
pointer-identical expressions is sound; and expressions with different
cached hashes are never alpha-equivalent, so answering `false` on hash
inequality is sound.  (Termination on shared sub-DAGs is the totality of
the embedded function.) -/
theorem expr_eq_decides_alpha_equivalence :
    (∀ a b, alphaEq a b = true ↔ alphaCanon a = alphaCanon b) ∧
    (∀ a, alphaEq a a = true) ∧
    (∀ a b, ehash a ≠ ehash b → alphaEq a b = false) := by
  refine ⟨alphaEq_iff_canon, fun a => (alphaEq_iff_canon a a).mpr rfl, ?_⟩
  intro a b hne
  cases hab : alphaEq a b
  · rfl
  · refine absurd ?_ hne
    rw [← ehash_canon a, ← ehash_canon b, (alphaEq_iff_canon a b).mp hab]

/-- Witness for `expr_eq_decides_alpha_equivalence` at a concrete input:
distinct variables have distinct hashes and are not alpha-equivalent. -/
theorem expr_eq_decides_alpha_equivalence_witness :
    ehash (.var 0) ≠ ehash (.var 1) ∧ alphaEq (.var 0) (.var 1) = false :=
  ⟨by decide, expr_eq_decides_alpha_equivalence.2.2 _ _ (by decide)⟩

mutual
/-- Syntactic (cell-level) equality of expressions: in the embedding two
expression cells are the same node exactly when they are syntactically
equal, so this plays the role of pointer identity for the mutable
`max_shared` bit. -/
def seq : Expr → Expr → Bool
  | .var i, .var j => i == j
  | .const n ty, .const n' ty' => (n == n') && seqOpt ty ty'
  | .type l, .type l' => l == l'
  | .value v, .value v' => v == v'
  | .app as, .app bs => seqList as bs
  | .lam nm d b, .lam nm' d' b' => (nm == nm') && seq d d' && seq b b'
  | .pi nm d b, .pi nm' d' b' => (nm == nm') && seq d d' && seq b b'
  | .sigma nm d b, .sigma nm' d' b' => (nm == nm') && seq d d' && seq b b'
  | .pair f s t, .pair f' s' t' => seq f f' && seq s s' && seq t t'
  | .proj p a, .proj p' a' => (p == p') && seq a a'
  | .letE nm ty v b, .letE nm' ty' v' b' =>
      (nm == nm') && seqOpt ty ty' && seq v v' && seq b b'
  | .heq l r, .heq l' r' => seq l l' && seq r r'
  | .metavar m lctx, .metavar m' lctx' => (m == m') && seqLctx lctx lctx'
  | _, _ => false

/-- `seq` on optional sub-expressions. -/
def seqOpt : Option Expr → Option Expr → Bool
  | none, none => true
  | some a, some b => seq a b
  | _, _ => false

/-- `seq` on argument lists. -/
def seqList : List Expr → List Expr → Bool
  | [], [] => true
  | a :: as, b :: bs => seq a b && seqList as bs
  | _, _ => false

/-- `seq` on metavariable local entries. -/
def seqLctx : List LocalEntry → List LocalEntry → Bool
  | [], [] => true
  | .lift s n :: es, .lift s' n' :: es' => (s == s') && (n == n') && seqLctx es es'
  | .inst s v :: es, .inst s' v' :: es' => (s == s') && seq v v' && seqLctx es es'
  | _, _ => false
end

mutual
/-- The `weight` cache of spec §4.1: `1 + sum of children's weights`
(modelled from the spec; also serves as a fully structural induction
principle over expressions). -/
def weight : Expr → Nat
  | .var _ => 1
  | .const _ ty => 1 + weightOpt ty
  | .type _ => 1
  | .value _ => 1
  | .app as => 1 + weightList as
  | .lam _ d b => 1 + weight d + weight b
  | .pi _ d b => 1 + weight d + weight b
  | .sigma _ d b => 1 + weight d + weight b
  | .pair f s t => 1 + weight f + weight s + weight t
  | .proj _ a => 1 + weight a
  | .letE _ ty v b => 1 + weightOpt ty + weight v + weight b
  | .heq l r => 1 + weight l + weight r
  | .metavar _ lctx => 1 + weightLctx lctx

/-- `weight` of an optional sub-expression. -/
def weightOpt : Option Expr → Nat
  | none => 0
  | some e => weight e

/-- Total `weight` of an argument list. -/
def weightList : List Expr → Nat
  | [] => 0
  | e :: es => weight e + weightList es

/-- Total `weight` of metavariable local entries. -/
def weightLctx : List LocalEntry → Nat
  | [] => 0
  | .lift _ _ :: es => 1 + weightLctx es
  | .inst _ v :: es => 1 + weight v + weightLctx es
end

theorem seq_refl : ∀ a, seq a a = true := by
  refine weight.induct
    (fun a => seq a a = true)
    (fun ls => seqLctx ls ls = true)
    (fun as => seqList as as = true)
    (fun oa => seqOpt oa oa = true)
    ?_ ?_ ?_ ?_ ?_ ?_ ?_ ?_ ?_ ?_ ?_ ?_ ?_ ?_ ?_ ?_ ?_ ?_ ?_ ?_ <;>
  · intros
    simp_all [seq, seqOpt, seqList, seqLctx]

theorem alphaEq_refl (a : Expr) : alphaEq a a = true := (alphaEq_iff_canon a a).mpr rfl

mutual
/-- `max_sharing_fn::imp::apply` (`kernel/max_sharing.cpp` lines 36-90).
The state is `(bits, cache)`: `bits` is the set of expressions whose
mutable `max_shared` bit is set (cell identity is syntactic equality in
the embedding), `cache` is the functional object's `m_cache`, looked up by
structural equality (`std::equal_to<expr>` is `expr_eq`).  A cache hit
returns the cached twin; an expression whose bit is already set is
inserted into the cache and returned; otherwise the children are rebuilt
(left to right) and the result gets its bit set and is cached. -/
def msApply (a : Expr) (st : List Expr × List Expr) : Expr × (List Expr × List Expr) :=
  match st.2.find? (fun r => alphaEq r a) with
  | some r => (r, st)
  | none =>
    if st.1.any (fun x => seq x a) then (a, (st.1, a :: st.2))
    else
      let p := msApplyCore a st
      (p.1, (p.1 :: p.2.1, p.1 :: p.2.2))
termination_by (sizeOf a, 1)

/-- The `switch (a.kind())` of `max_sharing_fn::imp::apply`: rebuild the
node from recursively shared children (`update_const`, `update_heq`,
`update_pair`, `update_proj`, `update_app`, `update_abst`, `update_let`,
`update_metavar`; `Var`, `Type` and `Value` nodes are returned as they
are). -/
def msApplyCore (a : Expr) (st : List Expr × List Expr) : Expr × (List Expr × List Expr) :=
  match a with
  | .var i => (.var i, st)
  | .type l => (.type l, st)
  | .value v => (.value v, st)
  | .const n ty =>
      let p := msApplyOpt ty st
      (.const n p.1, p.2)
  | .heq l r =>
      let p := msApply l st
      let q := msApply r p.2
      (.heq p.1 q.1, q.2)
  | .pair f s t =>
      let p := msApply f st
      let q := msApply s p.2
      let w := msApply t q.2
      (.pair p.1 q.1 w.1, w.2)
  | .proj b x =>
      let p := msApply x st
      (.proj b p.1, p.2)
  | .app as =>
      let p := msApplyList as st
      (.app p.1, p.2)
  | .lam nm d b =>
      let p := msApply d st
      let q := msApply b p.2
      (.lam nm p.1 q.1, q.2)
  | .pi nm d b =>
      let p := msApply d st
      let q := msApply b p.2
      (.pi nm p.1 q.1, q.2)
  | .sigma nm d b =>
      let p := msApply d st
      let q := msApply b p.2
      (.sigma nm p.1 q.1, q.2)
  | .letE nm ty v b =>
      let p := msApplyOpt ty st
      let q := msApply v p.2
      let w := msApply b q.2
      (.letE nm p.1 q.1 w.1, w.2)
  | .metavar m lctx =>
      let p := msApplyLctx lctx st
      (.metavar m p.1, p.2)
termination_by (sizeOf a, 0)

/-- `msApply` on an optional sub-expression. -/
def msApplyOpt (oe : Option Expr) (st : List Expr × List Expr) :
    Option Expr × (List Expr × List Expr) :=
  match oe with
  | none => (none, st)
  | some e =>
      let p := msApply e st
      (some p.1, p.2)
termination_by (sizeOf oe, 0)

/-- `msApply` on an argument list, left to right. -/
def msApplyList (es : List Expr) (st : List Expr × List Expr) :
    List Expr × (List Expr × List Expr) :=
  match es with
  | [] => ([], st)
  | e :: rest =>
      let p := msApply e st
      let q := msApplyList rest p.2
      (p.1 :: q.1, q.2)
termination_by (sizeOf es, 0)

/-- `msApply` on metavariable local entries (`Inst` entries have their
expression shared, `Lift` entries pass through). -/
def msApplyLctx (ls : List LocalEntry) (st : List Expr × List Expr) :
    List LocalEntry × (List Expr × List Expr) :=
  match ls with
  | [] => ([], st)
  | .lift s n :: rest =>
      let q := msApplyLctx rest st
      (.lift s n :: q.1, q.2)
  | .inst s v :: rest =>
      let p := msApply v st
      let q := msApplyLctx rest p.2
      (.inst s p.1 :: q.1, q.2)
termination_by (sizeOf ls, 0)
end

/-- `max_sharing(a)` (`kernel/max_sharing.cpp` lines 99-104): return `a`
unchanged when its `max_shared` bit is already set, otherwise run a fresh
`max_sharing_fn` (with an empty cache) over it; the updated bit set is
returned alongside. -/
def max_sharing (bits : List Expr) (a : Expr) : Expr × List Expr :=
  if bits.any (fun x => seq x a) then (a, bits)
  else
    let p := msApply a (bits, [])
    (p.1, p.2.1)

theorem msApply_alphaEq :
    ∀ a st, alphaEq (msApply a st).1 a = true := by
  refine msApply.induct
    (fun a st => alphaEq (msApply a st).1 a = true)
    (fun a st => alphaEq (msApplyCore a st).1 a = true)
    (fun ls st => alphaEqLctx (msApplyLctx ls st).1 ls = true)
    (fun es st => alphaEqList (msApplyList es st).1 es = true)
    (fun oe st => alphaEqOpt (msApplyOpt oe st).1 oe = true)
    ?_ ?_ ?_ ?_ ?_ ?_ ?_ ?_ ?_ ?_ ?_ ?_ ?_ ?_ ?_ ?_ ?_ ?_ ?_ ?_ ?_ ?_ ?_ <;>
  · intros
    first
      | (rename_i hfind
         simp [msApply, hfind, List.find?_some hfind]
         done)
      | (rename_i hfind hany
         simp [msApply, hfind, hany, alphaEq_refl]
         done)
      | (rename_i hfind hnot ih
         simp [msApply, hfind, hnot, ih]
         done)
      | (simp_all [msApplyCore, msApplyOpt, msApplyList, msApplyLctx,
          alphaEq, alphaEqOpt, alphaEqList, alphaEqLctx, alphaEq_refl]
         done)

/-- `x`'s cell carries the `max_shared` bit in the bit set `bits`. -/
def bitSet (bits : List Expr) (x : Expr) : Prop := bits.any (fun y => seq y x) = true

/-- Invariant of the max-sharing state: every cached expression is marked
max-shared. -/
def msInv (st : List Expr × List Expr) : Prop := ∀ x ∈ st.2, bitSet st.1 x

/-- A max-sharing step preserves the invariant and only grows the bit
set. -/
def StepOK (st st' : List Expr × List Expr) : Prop :=
  msInv st → msInv st' ∧ st.1 ⊆ st'.1

theorem bitSet_cons (e x : Expr) (bits : List Expr) (h : bitSet bits x) : bitSet (e :: bits) x := by
  simp only [bitSet, List.any_cons, Bool.or_eq_true] at h ⊢
  exact Or.inr h

theorem bitSet_head (e : Expr) (bits : List Expr) : bitSet (e :: bits) e := by
  simp [bitSet, seq_refl]

theorem bitSet_mono {bits bits' : List Expr} {x : Expr} (hs : bits ⊆ bits')
    (h : bitSet bits x) : bitSet bits' x := by
  simp only [bitSet, List.any_eq_true] at h ⊢
  obtain ⟨y, hy, hyx⟩ := h
  exact ⟨y, hs hy, hyx⟩

theorem StepOK.srefl (st : List Expr × List Expr) : StepOK st st := fun h => ⟨h, fun _ hx => hx⟩

theorem StepOK.trans {s1 s2 s3 : List Expr × List Expr} (h1 : StepOK s1 s2) (h2 : StepOK s2 s3) :
    StepOK s1 s3 := fun h =>
  have p1 := h1 h
  have p2 := h2 p1.1
  ⟨p2.1, fun x hx => p2.2 (p1.2 hx)⟩

theorem StepOK.mark {st st' : List Expr × List Expr} (e : Expr) (h : StepOK st st') :
    StepOK st (e :: st'.1, e :: st'.2) := fun hInv =>
  have p := h hInv
  ⟨fun x hx => by
     rcases List.mem_cons.mp hx with rfl | hx'
     · exact bitSet_head _ _
     · exact bitSet_cons _ _ _ (p.1 x hx')
   , fun x hx => List.mem_cons_of_mem _ (p.2 hx)⟩

theorem msApply_bits :
    ∀ a st, StepOK st (msApply a st).2 ∧
      (msInv st → bitSet (msApply a st).2.1 (msApply a st).1) := by
  refine msApply.induct
    (fun a st => StepOK st (msApply a st).2 ∧
      (msInv st → bitSet (msApply a st).2.1 (msApply a st).1))
    (fun a st => StepOK st (msApplyCore a st).2)
    (fun ls st => StepOK st (msApplyLctx ls st).2)
    (fun es st => StepOK st (msApplyList es st).2)
    (fun oe st => StepOK st (msApplyOpt oe st).2)
    ?_ ?_ ?_ ?_ ?_ ?_ ?_ ?_ ?_ ?_ ?_ ?_ ?_ ?_ ?_ ?_ ?_ ?_ ?_ ?_ ?_ ?_ ?_
  · intro a st r hfind
    simp only [msApply, hfind]
    exact ⟨StepOK.srefl st, fun h => h r (List.mem_of_find?_eq_some hfind)⟩
  · intro a st hfind hany
    simp only [msApply, hfind, hany, if_true]
    refine ⟨fun h => ⟨fun x hx => ?_, fun x hx => hx⟩, fun h => hany⟩
    rcases List.mem_cons.mp hx with rfl | hx'
    · exact hany
    · exact h x hx'
  · intro a st hfind hnot ih
    simp only [msApply, hfind]
    rw [if_neg hnot]
    exact ⟨StepOK.mark _ ih, fun h => bitSet_head _ _⟩
  · intro st i
    simp only [msApplyCore]
    exact StepOK.srefl st
  · intro st l
    simp only [msApplyCore]
    exact StepOK.srefl st
  · intro st v
    simp only [msApplyCore]
    exact StepOK.srefl st
  · intro st n ty ih
    simp only [msApplyCore]
    exact ih
  · intro st l r p ih1 ih2
    simp only [msApplyCore]
    exact StepOK.trans ih1.1 ih2.1
  · intro st f s t p q ih1 ih2 ih2' ih3
    simp only [msApplyCore]
    exact StepOK.trans ih1.1 (StepOK.trans ih2.1 ih3.1)
  · intro st b x ih
    simp only [msApplyCore]
    exact ih.1
  · intro st as ih
    simp only [msApplyCore]
    exact ih
  · intro st nm d b p ih1 ih2
    simp only [msApplyCore]
    exact StepOK.trans ih1.1 ih2.1
  · intro st nm d b p ih1 ih2
    simp only [msApplyCore]
    exact StepOK.trans ih1.1 ih2.1
  · intro st nm d b p ih1 ih2
    simp only [msApplyCore]
    exact StepOK.trans ih1.1 ih2.1
  · intro st nm ty v b p q ih1 ih2 ih2' ih3
    simp only [msApplyCore]
    exact StepOK.trans ih1 (StepOK.trans ih2.1 ih3.1)
  · intro st m lctx ih
    simp only [msApplyCore]
    exact ih
  · intro st
    simp only [msApplyLctx]
    exact StepOK.srefl st
  · intro st s n es ih
    simp only [msApplyLctx]
    exact ih
  · intro st s v es p ih1 ih2
    simp only [msApplyLctx]
    exact StepOK.trans ih1.1 ih2
  · intro st
    simp only [msApplyList]
    exact StepOK.srefl st
  · intro st f rest p ih1 ih2
    simp only [msApplyList]
    exact StepOK.trans ih1.1 ih2
  · intro st
    simp only [msApplyOpt]
    exact StepOK.srefl st
  · intro st e ih
    simp only [msApplyOpt]
    exact ih.1

/-- Claim C3: for every expression `e` (and any state of the `max_shared`
bits), `max_sharing(e)` is structurally equal (alpha-equivalent) to `e`,
and `max_sharing` is idempotent: applied to its own result — whose bit was
set during the first traversal — it short-circuits and returns that result
itself, with the bit state unchanged. -/
theorem max_sharing_spec :
    ∀ bits a,
      alphaEq (max_sharing bits a).1 a = true ∧
      max_sharing (max_sharing bits a).2 (max_sharing bits a).1 = max_sharing bits a := by
  intro bits a
  by_cases hb : (bits.any fun x => seq x a) = true
  · constructor
    · simp [max_sharing, hb, alphaEq_refl]
    · simp [max_sharing, hb]
  · have hB := (msApply_bits a (bits, [])).2 (fun x hx => absurd hx (List.not_mem_nil x))
    constructor
    · simp only [max_sharing]
      rw [if_neg hb]
      exact msApply_alphaEq a (bits, [])
    · simp only [bitSet] at hB
      simp only [max_sharing]
      rw [if_neg hb]
      simp only [max_sharing]
      rw [if_pos hB]

/-- Kernel error kinds (from `kernel/kernel_exception.h` and the spec's
failure taxonomy; the structured diagnostic payloads carried by the C++
exceptions are omitted, only the kind decides the claims). -/
inductive KErr where
  | unknownName (n : String)
  | alreadyDeclared (n : String)
  | alreadyDeclaredUniverse (n : String)
  | readOnlyEnv
  | functionExpected
  | typeExpected
  | appTypeMismatch
  | defTypeMismatch
  | contextCheck
  | occursCheck
  | maxSteps
deriving DecidableEq

/-- Environment object kinds the claims need (modelled from the spec §3:
`environment.cpp` is not part of the sources under review): postulates
(`add_var`) and definitions with an opacity flag (`add_definition`). -/
inductive Obj where
  | postulate (ty : Expr)
  | defn (ty : Expr) (value : Expr) (opq : Bool)

/-- Environment (modelled from the spec §4.3): named objects in
declaration order, universe-variable lower bounds (`define_uvar` records
`name ≥ bound`), the frozen flag (`has_children`, set while children are
alive), and the parent chain. -/
inductive Env where
  | env (objects : List (String × Obj)) (uvars : List (String × Level))
        (children : Bool) (parent : Option Env)

/-- The objects declared directly in this environment. -/
def Env.objects : Env → List (String × Obj)
  | .env o _ _ _ => o

/-- The universe-variable bounds declared directly in this environment. -/
def Env.uvarsOwn : Env → List (String × Level)
  | .env _ u _ _ => u

/-- `has_children`. -/
def Env.hasChildren : Env → Bool
  | .env _ _ c _ => c

/-- `find_object`: look up a name, walking child to parent. -/
def find_object : Env → String → Option Obj
  | .env objs _ _ par, n =>
    match objs.find? (fun p => p.1 == n) with
    | some p => some p.2
    | none =>
      match par with
      | none => none
      | some e => find_object e n

/-- All universe constraints visible from this environment (own, then
parent's). -/
def envUvars : Env → List (String × Level)
  | .env _ uv _ par =>
    uv ++ (match par with
           | none => []
           | some e => envUvars e)

/-- Lower bound recorded for a universe variable. -/
def lookupBound (cs : List (String × Level)) (u : String) : Option Level :=
  match cs.find? (fun p => p.1 == u) with
  | some p => some p.2
  | none => none

/-- `environment::is_ge` on universe levels (modelled from the spec:
`is_ge(u, v)` holds iff `u ≥ v` is derivable by transitive closure over
the constraint graph): maxima on the right need both sides, maxima on the
left either side, successors step down together, everything dominates
zero, and a universe variable is chased through its recorded lower bound.
The fuel bounds constraint chains (the spec's constraint graphs are
acyclic). -/
def lvlGe (cs : List (String × Level)) : Nat → Level → Level → Bool
  | 0, _, _ => false
  | fuel + 1, a, b =>
    if a == b then true
    else
      match a, b with
      | _, .zero => true
      | _, .lmax b1 b2 => lvlGe cs fuel a b1 && lvlGe cs fuel a b2
      | .lmax a1 a2, _ => lvlGe cs fuel a1 b || lvlGe cs fuel a2 b
      | .succ a', .succ b' => lvlGe cs fuel a' b'
      | .succ a', _ => lvlGe cs fuel a' b
      | .uvar u, _ =>
        match lookupBound cs u with
        | some c => lvlGe cs fuel c b
        | none => false
      | .zero, _ => false

/-- Weak-head normalization (modelled from the spec §4.4; `normalize.cpp`
is not part of the sources under review): beta-reduce lambda heads, apply
`Value` normalize hooks, delta-unfold non-opaque definitions (failing with
`unknown_name` on a missing constant), zeta-reduce `let`, iota-reduce
projections of pairs; sorts, binders, variables and metavariables are
already weak-head normal.  The fuel is the spec §5 step budget. -/
def whnf (env : Env) : Nat → Expr → Except KErr Expr
  | 0, _ => .error .maxSteps
  | fuel + 1, e =>
    match e with
    | .app args =>
      match args with
      | [] => pure (.app [])
      | f :: rest => do
        let f' ← whnf env fuel f
        if f'.isLambda then
          match apply_beta f' rest with
          | some r => whnf env fuel r
          | none => pure (mkApp (f' :: rest))
        else
          match f' with
          | .value v =>
            match valueNormalize v (f' :: rest) with
            | some r => whnf env fuel r
            | none => pure (mkApp (f' :: rest))
          | _ => pure (mkApp (f' :: rest))
    | .const n ty =>
      match find_object env n with
      | none => .error (.unknownName n)
      | some (.defn _ v opq) => if opq then pure (.const n ty) else whnf env fuel v
      | some _ => pure (.const n ty)
    | .letE _ _ v b => whnf env fuel (instantiate b 0 [v])
    | .proj p (.pair f s t) => whnf env fuel (if p then f else s)
    | e => pure e

mutual
/-- Full normalization (modelled from the spec §4.4: reduce under binders,
innermost first; `normalize.cpp` is not part of the sources under review):
children are normalized left to right, then lambda heads beta-reduce,
`Value` heads run their normalize hooks, non-opaque definitions unfold
(`unknown_name` when the constant is absent), `let` zeta-reduces and
projections of pairs iota-reduce. -/
def normalize (env : Env) : Nat → Expr → Except KErr Expr
  | 0, _ => .error .maxSteps
  | fuel + 1, e =>
    match e with
    | .var i => pure (.var i)
    | .type l => pure (.type l)
    | .value v => pure (.value v)
    | .metavar m l => pure (.metavar m l)
    | .const n ty =>
      match find_object env n with
      | none => .error (.unknownName n)
      | some (.defn _ v opq) => if opq then pure (.const n ty) else normalize env fuel v
      | some _ => pure (.const n ty)
    | .app args => do
      let args' ← normalizeList env fuel args
      match args' with
      | [] => pure (.app [])
      | f :: rest =>
        if f.isLambda then
          match apply_beta f rest with
          | some r => normalize env fuel r
          | none => pure (mkApp args')
        else
          match f with
          | .value v =>
            match valueNormalize v (f :: rest) with
            | some r => normalize env fuel r
            | none => pure (mkApp args')
          | _ => pure (mkApp args')
    | .lam nm d b => do
      pure (.lam nm (← normalize env fuel d) (← normalize env fuel b))
    | .pi nm d b => do
      pure (.pi nm (← normalize env fuel d) (← normalize env fuel b))
    | .sigma nm d b => do
      pure (.sigma nm (← normalize env fuel d) (← normalize env fuel b))
    | .pair f s t => do
      pure (.pair (← normalize env fuel f) (← normalize env fuel s) (← normalize env fuel t))
    | .proj p x => do
      let x' ← normalize env fuel x
      match x' with
      | .pair f s _ => normalize env fuel (if p then f else s)
      | _ => pure (.proj p x')
    | .letE _ _ v b => normalize env fuel (instantiate b 0 [v])
    | .heq l r => do
      pure (.heq (← normalize env fuel l) (← normalize env fuel r))

/-- `normalize` on an argument list, left to right. -/
def normalizeList (env : Env) : Nat → List Expr → Except KErr (List Expr)
  | 0, _ => .error .maxSteps
  | _ + 1, [] => pure []
  | fuel + 1, e :: es => do
    pure ((← normalize env fuel e) :: (← normalizeList env fuel es))
end

/-- `iVal` of the tests: an integer literal. -/
def iVal (n : Int) : Expr := mkIntValue n

/-- `iAdd` of the tests: application of the builtin `+` value. -/
def iAdd (a b : Expr) : Expr := .app [.value .intAdd, a, b]

/-- `iMul` of the tests: application of the builtin `*` value. -/
def iMul (a b : Expr) : Expr := .app [.value .intMul, a, b]

/-- The builtin `Int` type value. -/
def IntT : Expr := .value .intType

/-- The parent environment of scenario C7 / test `tst3`: the builtin
integer operations live in the term language as values; `a := 1 + 2` and
`b := 2 * a` are definitions.  The environment is frozen because the child
below is alive. -/
def envParentC7 : Env :=
  .env [("a", .defn IntT (iAdd (iVal 1) (iVal 2)) false),
        ("b", .defn IntT (iMul (iVal 2) (.const "a" none)) false)] [] true none

/-- The child environment of scenario C7 with `c := a`. -/
def envChildC7 : Env :=
  .env [("c", .defn IntT (.const "a" none) false)] [] false (some envParentC7)

/-- Claim C7: with the builtin integer operations and `a := 1 + 2`,
`b := 2 * a`, normalization computes `normalize(b) = 6`; in a child
environment with `c := a`, `normalize(c, child) = 3`, while
`normalize(c, parent)` fails with the unknown-name error for `"c"`. -/
theorem normalize_arith_scenario :
    normalize envParentC7 30 (.const "b" none) = .ok (iVal 6) ∧
    normalize envChildC7 30 (.const "c" none) = .ok (iVal 3) ∧
    normalize envParentC7 30 (.const "c" none) = .error (.unknownName "c") :=
  ⟨rfl, rfl, rfl⟩

mutual
/-- Structural (alpha) equality with the spec §5 step budget, used inside
the modelled convertibility check and equivalent to `alphaEq` on inputs
within the budget (the budget only makes the recursion structural so that
concrete scenarios evaluate). -/
def alphaEqF : Nat → Expr → Expr → Bool
  | 0, _, _ => false
  | fuel + 1, a, b =>
    match a, b with
    | .var i, .var j => i == j
    | .const n _, .const n' _ => n == n'
    | .type l, .type l' => l == l'
    | .value v, .value v' => v == v'
    | .app as, .app bs => alphaEqFList fuel as bs
    | .lam _ d b, .lam _ d' b' => alphaEqF fuel d d' && alphaEqF fuel b b'
    | .pi _ d b, .pi _ d' b' => alphaEqF fuel d d' && alphaEqF fuel b b'
    | .sigma _ d b, .sigma _ d' b' => alphaEqF fuel d d' && alphaEqF fuel b b'
    | .pair f s t, .pair f' s' t' =>
        alphaEqF fuel f f' && alphaEqF fuel s s' && alphaEqF fuel t t'
    | .proj p a, .proj p' a' => (p == p') && alphaEqF fuel a a'
    | .letE _ ty v b, .letE _ ty' v' b' =>
        alphaEqFOpt fuel ty ty' && alphaEqF fuel v v' && alphaEqF fuel b b'
    | .heq l r, .heq l' r' => alphaEqF fuel l l' && alphaEqF fuel r r'
    | .metavar m lctx, .metavar m' lctx' => (m == m') && alphaEqFLctx fuel lctx lctx'
    | _, _ => false

/-- `alphaEqF` on optional sub-expressions. -/
def alphaEqFOpt : Nat → Option Expr → Option Expr → Bool
  | 0, _, _ => false
  | _ + 1, none, none => true
  | fuel + 1, some a, some b => alphaEqF fuel a b
  | _ + 1, _, _ => false

/-- `alphaEqF` on argument lists. -/
def alphaEqFList : Nat → List Expr → List Expr → Bool
  | 0, _, _ => false
  | _ + 1, [], [] => true
  | fuel + 1, a :: as, b :: bs => alphaEqF fuel a b && alphaEqFList fuel as bs
  | _ + 1, _, _ => false

/-- `alphaEqF` on metavariable local entries. -/
def alphaEqFLctx : Nat → List LocalEntry → List LocalEntry → Bool
  | 0, _, _ => false
  | _ + 1, [], [] => true
  | fuel + 1, .lift s n :: es, .lift s' n' :: es' =>
      (s == s') && (n == n') && alphaEqFLctx fuel es es'
  | fuel + 1, .inst s v :: es, .inst s' v' :: es' =>
      (s == s') && alphaEqF fuel v v' && alphaEqFLctx fuel es es'
  | _ + 1, _, _ => false
end

/-- Convertibility check, in the cumulativity direction `a ≤ b` (modelled
from the spec §4.4; `type_check.cpp` is not part of the sources under
review): weak-head normalize both sides; structurally equal heads are
convertible; `Sort(u) ≤ Sort(v)` when `is_ge(v, u)`; `Pi` types compare
domains as an equivalence and codomains by cumulativity. -/
def isConvLe (env : Env) : Nat → Expr → Expr → Bool
  | 0, _, _ => false
  | fuel + 1, a, b =>
    match whnf env fuel a, whnf env fuel b with
    | .ok a', .ok b' =>
      if alphaEqF (fuel + 1) a' b' then true
      else
        match a', b' with
        | .type u, .type v => lvlGe (envUvars env) (fuel + 1) v u
        | .pi _ d1 c1, .pi _ d2 c2 =>
          isConvLe env fuel d1 d2 && isConvLe env fuel d2 d1 && isConvLe env fuel c1 c2
        | _, _ => false
    | _, _ => false

mutual
/-- Type inference (modelled from the spec §4.5; `type_check.cpp` is not
part of the sources under review).  The context is the list of domains of
the surrounding binders, innermost first; `Var(i)` gets `ctx[i]` lifted by
`i+1`; constants get their declared type (`unknown_name` when absent);
values their `get_type`; `Sort(u) : Sort(Succ(u))`; applications walk the
arguments left to right through `inferApp`; lambdas extend the context and
produce a `Pi`; `Pi` types land in the sort of the maximum; `let` infers
the instantiated body and `HEq` is boolean.  The remaining forms (`Sigma`,
`Pair`, `Proj`, metavariables) are not exercised by the claims under
verification and are left at `type_expected`. -/
def infer (env : Env) : Nat → List Expr → Expr → Except KErr Expr
  | 0, _, _ => .error .maxSteps
  | fuel + 1, ctx, e =>
    match e with
    | .var i =>
      match ctx.get? i with
      | some ty => pure (lift_free_vars ty 0 (i + 1))
      | none => .error .typeExpected
    | .const n _ =>
      match find_object env n with
      | some (.postulate ty) => pure ty
      | some (.defn ty _ _) => pure ty
      | none => .error (.unknownName n)
    | .value v => pure (valueType v)
    | .type l => pure (.type (.succ l))
    | .app args =>
      match args with
      | [] => .error .functionExpected
      | f :: rest => do
        let tf ← infer env fuel ctx f
        inferApp env fuel ctx tf rest
    | .lam nm d b => do
      let td ← whnf env fuel (← infer env fuel ctx d)
      match td with
      | .type _ => do
        let tb ← infer env fuel (d :: ctx) b
        pure (.pi nm d tb)
      | _ => .error .typeExpected
    | .pi _ d b => do
      let td ← whnf env fuel (← infer env fuel ctx d)
      let tb ← whnf env fuel (← infer env fuel (d :: ctx) b)
      match td, tb with
      | .type u, .type v => pure (.type (.lmax u v))
      | _, _ => .error .typeExpected
    | .letE _ _ v b => infer env fuel ctx (instantiate b 0 [v])
    | .heq _ _ => pure (.value .boolType)
    | _ => .error .typeExpected

/-- The application loop of `infer` (spec §4.5): at each argument the
function type must weak-head normalize to a `Pi`; the argument's type must
be convertible (up to cumulativity) to the domain, else
`app_type_mismatch`; the result type is the codomain instantiated with the
argument. -/
def inferApp (env : Env) : Nat → List Expr → Expr → List Expr → Except KErr Expr
  | 0, _, _, _ => .error .maxSteps
  | _ + 1, _, t, [] => pure t
  | fuel + 1, ctx, t, a :: rest => do
    let tw ← whnf env fuel t
    match tw with
    | .pi _ dom cod => do
      let ta ← infer env fuel ctx a
      if isConvLe env fuel ta dom then
        inferApp env fuel ctx (instantiate cod 0 [a]) rest
      else
        .error .appTypeMismatch
    | _ => .error .functionExpected
end

/-- The environment of scenario C8 / test `tst6`: universe variables
`u ≥ 1` and `w ≥ u + 1`, and a variable `f : Type(u) → Type(u)`. -/
def envC8 : Env :=
  .env [("f", .postulate (.pi "_" (.type (.uvar "u")) (.type (.uvar "u"))))]
       [("u", Level.add .zero 1), ("w", Level.add (.uvar "u") 1)] false none

set_option maxRecDepth 200000 in
/-- Claim C8: in the environment declaring `u ≥ 1`, `w ≥ u + 1` and
`f : Type(u) → Type(u)`, the type of `f Int` is `Type(u)` (by
cumulativity, `Int : Type ≤ Type(u)`), while inferring the type of
`f (Type(w))` raises `app_type_mismatch` (since `u ≥ w + 1` is not
derivable). -/
theorem universe_cumulativity_scenario :
    infer envC8 20 [] (.app [.const "f" none, .value .intType]) = .ok (.type (.uvar "u")) ∧
    infer envC8 20 [] (.app [.const "f" none, .type (.uvar "w")]) = .error .appTypeMismatch :=
  ⟨rfl, rfl⟩

/-- Append an object in declaration order. -/
def appendObj : Env → String → Obj → Env
  | .env objs uv ch par, n, o => .env (objs ++ [(n, o)]) uv ch par

/-- Append a universe-variable bound. -/
def appendUvar : Env → String → Level → Env
  | .env objs uv ch par, n, l => .env objs (uv ++ [(n, l)]) ch par

/-- `add_var(name, type)` (modelled from the spec §4.3;
`environment.cpp` is not part of the sources under review): fails
`read_only_environment` while children are alive, `already_declared` on a
name collision, otherwise inserts a postulate. -/
def add_var (env : Env) (n : String) (ty : Expr) : Except KErr Env :=
  if env.hasChildren then .error .readOnlyEnv
  else if (find_object env n).isSome then .error (.alreadyDeclared n)
  else .ok (appendObj env n (.postulate ty))

/-- `define_uvar(name, level)` (modelled from the spec §4.3): fails
`read_only_environment` while children are alive,
`already_declared_universe` on a collision, otherwise extends the universe
ordering. -/
def define_uvar (env : Env) (n : String) (l : Level) : Except KErr Env :=
  if env.hasChildren then .error .readOnlyEnv
  else if (lookupBound (envUvars env) n).isSome then .error (.alreadyDeclaredUniverse n)
  else .ok (appendUvar env n l)

/-- The `check` step of `add_definition` (modelled from the spec §4.3):
the value's inferred type must be convertible to the declared type, else
`def_type_mismatch`. -/
def def_value_checks (env : Env) (fuel : Nat) (ty v : Expr) : Except KErr Unit := do
  let t ← infer env fuel [] v
  if isConvLe env fuel t ty then pure () else .error .defTypeMismatch

/-- `add_definition(name, type, value, opaque)` (modelled from the spec
§4.3): fails `read_only_environment` while children are alive,
`already_declared` on a name collision, propagates the type-check failure,
otherwise inserts the definition. -/
def add_definition (env : Env) (fuel : Nat) (n : String) (ty v : Expr) (opq : Bool) :
    Except KErr Env :=
  if env.hasChildren then .error .readOnlyEnv
  else if (find_object env n).isSome then .error (.alreadyDeclared n)
  else
    match def_value_checks env fuel ty v with
    | .ok _ => .ok (appendObj env n (.defn ty v opq))
    | .error e => .error e

/-- The external event of dropping the last child environment: the
per-environment state machine of the spec §4.3 moves `Frozen → Mutable`
(`has_children` becomes false), everything else unchanged. -/
def dropChildren : Env → Env
  | .env objs uv _ par => .env objs uv false par

/-- Claim C6: while an environment has a live child, every addition
(`add_var`, `define_uvar`, `add_definition`) raises
`read_only_environment`; after all children are dropped the environment is
writable again and the same addition succeeds (under its usual
preconditions: the name is fresh, and for `add_definition` the value
type-checks against the declared type). -/
theorem read_only_environment_spec
    (env : Env) (fuel : Nat) (n : String) (ty v : Expr) (l : Level) (opq : Bool)
    (hch : env.hasChildren = true) :
    (add_var env n ty = .error .readOnlyEnv ∧
     define_uvar env n l = .error .readOnlyEnv ∧
     add_definition env fuel n ty v opq = .error .readOnlyEnv) ∧
    ((dropChildren env).hasChildren = false ∧
     (find_object (dropChildren env) n = none →
        add_var (dropChildren env) n ty =
          .ok (appendObj (dropChildren env) n (.postulate ty))) ∧
     (lookupBound (envUvars (dropChildren env)) n = none →
        define_uvar (dropChildren env) n l = .ok (appendUvar (dropChildren env) n l)) ∧
     (find_object (dropChildren env) n = none →
        def_value_checks (dropChildren env) fuel ty v = .ok () →
        add_definition (dropChildren env) fuel n ty v opq =
          .ok (appendObj (dropChildren env) n (.defn ty v opq)))) := by
  obtain ⟨objs, uv, ch, par⟩ := env
  simp only [Env.hasChildren] at hch
  subst hch
  refine ⟨⟨?_, ?_, ?_⟩, ?_, ?_, ?_, ?_⟩
  · simp [add_var, Env.hasChildren]
  · simp [define_uvar, Env.hasChildren]
  · simp [add_definition, Env.hasChildren]
  · simp [dropChildren, Env.hasChildren]
  · intro hn
    simp_all [add_var, dropChildren, Env.hasChildren]
  · intro hn
    simp_all [define_uvar, dropChildren, Env.hasChildren]
  · intro hn hv
    simp_all [add_definition, dropChildren, Env.hasChildren]

/-- Witness for `read_only_environment_spec` at a concrete input: a frozen
empty environment rejects `add_var`, and accepts it after its children are
dropped. -/
theorem read_only_environment_spec_witness :
    add_var (Env.env [] [] true none) "x" IntT = .error .readOnlyEnv ∧
    add_var (dropChildren (Env.env [] [] true none)) "x" IntT =
      .ok (appendObj (dropChildren (Env.env [] [] true none)) "x" (.postulate IntT)) :=
  ⟨(read_only_environment_spec (Env.env [] [] true none) 10 "x" IntT (iVal 1)
      (Level.add .zero 1) false rfl).1.1,
   (read_only_environment_spec (Env.env [] [] true none) 10 "x" IntT (iVal 1)
      (Level.add .zero 1) false rfl).2.2.1 rfl⟩

mutual
/-- The metavariable with index `i` occurs in the expression. -/
def occursMVar (i : Nat) : Expr → Bool
  | .var _ => false
  | .const _ _ => false
  | .type _ => false
  | .value _ => false
  | .app args => occursMVarList i args
  | .lam _ d b => occursMVar i d || occursMVar i b
  | .pi _ d b => occursMVar i d || occursMVar i b
  | .sigma _ d b => occursMVar i d || occursMVar i b
  | .pair f s t => occursMVar i f || occursMVar i s || occursMVar i t
  | .proj _ a => occursMVar i a
  | .letE _ ty v b => occursMVarOpt i ty || occursMVar i v || occursMVar i b
  | .heq l r => occursMVar i l || occursMVar i r
  | .metavar m lctx => (m == i) || occursMVarLctx i lctx

/-- `occursMVar` on an optional sub-expression. -/
def occursMVarOpt (i : Nat) : Option Expr → Bool
  | none => false
  | some e => occursMVar i e

/-- `occursMVar` on an argument list. -/
def occursMVarList (i : Nat) : List Expr → Bool
  | [] => false
  | e :: es => occursMVar i e || occursMVarList i es

/-- `occursMVar` on metavariable local entries. -/
def occursMVarLctx (i : Nat) : List LocalEntry → Bool
  | [] => false
  | .lift _ _ :: es => occursMVarLctx i es
  | .inst _ v :: es => occursMVar i v || occursMVarLctx i es
end

mutual
/-- Every metavariable index mentioned in the expression is `< k`. -/
def mvarsBelow (k : Nat) : Expr → Bool
  | .var _ => true
  | .const _ _ => true
  | .type _ => true
  | .value _ => true
  | .app args => mvarsBelowList k args
  | .lam _ d b => mvarsBelow k d && mvarsBelow k b
  | .pi _ d b => mvarsBelow k d && mvarsBelow k b
  | .sigma _ d b => mvarsBelow k d && mvarsBelow k b
  | .pair f s t => mvarsBelow k f && mvarsBelow k s && mvarsBelow k t
  | .proj _ a => mvarsBelow k a
  | .letE _ ty v b => mvarsBelowOpt k ty && mvarsBelow k v && mvarsBelow k b
  | .heq l r => mvarsBelow k l && mvarsBelow k r
  | .metavar m lctx => decide (m < k) && mvarsBelowLctx k lctx

/-- `mvarsBelow` on an optional sub-expression. -/
def mvarsBelowOpt (k : Nat) : Option Expr → Bool
  | none => true
  | some e => mvarsBelow k e

/-- `mvarsBelow` on an argument list. -/
def mvarsBelowList (k : Nat) : List Expr → Bool
  | [] => true
  | e :: es => mvarsBelow k e && mvarsBelowList k es

/-- `mvarsBelow` on metavariable local entries. -/
def mvarsBelowLctx (k : Nat) : List LocalEntry → Bool
  | [] => true
  | .lift _ _ :: es => mvarsBelowLctx k es
  | .inst _ v :: es => mvarsBelow k v && mvarsBelowLctx k es
end

/-- Local contexts of metavariables (spec §4.5: an ordered list of
`(name_hint, domain)` pairs; written outermost first so that the header's
"prefix" is a list prefix). -/
def MCtx : Type := List (String × Expr)

/-- The metavariable `i` occurs in a context (in some entry's domain). -/
def ctxOccurs (i : Nat) (ctx : MCtx) : Bool := ctx.any (fun p => occursMVar i p.2)

/-- Every metavariable index mentioned in the context is `< k`. -/
def ctxMVarsBelow (k : Nat) (ctx : MCtx) : Bool := ctx.all (fun p => mvarsBelow k p.2)

/-- Syntactic list-prefix test on contexts. -/
def ctxPrefixOf : MCtx → MCtx → Bool
  | [], _ => true
  | p :: t1, l2 =>
    match l2 with
    | [] => false
    | q :: t2 => (p.1 == q.1) && seq p.2 q.2 && ctxPrefixOf t1 t2

/-- A metavariable cell of `metavar_env` (`kernel/metavar.h` lines 34-55):
the (optional) assigned expression, the context of the introduction site,
the union-find link and rank.  (`m_state` plays no role in the context
invariants.) -/
structure MCell where
  assignment : Option Expr
  ctx : MCtx
  find : Nat
  rank : Nat

/-- The `metavar_env` state: the cell array `m_cells`. -/
structure MState where
  cells : List MCell

/-- `metavar_env::mk_metavar(ctx)` (modelled from the spec §4.5;
`kernel/metavar.cpp` is not part of the sources under review): push a cell
`(None, ctx, find = self, rank = 0)` and return the fresh metavariable. -/
def mk_metavar (s : MState) (ctx : MCtx) : MState × Expr :=
  (⟨s.cells ++ [⟨none, ctx, s.cells.length, 0⟩]⟩, .metavar s.cells.length [])

/-- Follow the union-find `find` links (the spec's `root`); fuelled by the
number of cells, enough for any forest. -/
def rootIdx (s : MState) : Nat → Nat → Nat
  | 0, i => i
  | fuel + 1, i =>
    match s.cells[i]? with
    | some c => if c.find = i then i else rootIdx s fuel c.find
    | none => i

/-- The root of a metavariable's equivalence class. -/
def mroot (s : MState) (i : Nat) : Nat := rootIdx s s.cells.length i

/-- `metavar_env::assign(m, s)` (modelled from the spec §4.5): find the
root, occur-check (`occurs_check` failure when the root occurs in the
assigned term), context-check (the term must be well-scoped in the root's
context), then record the assignment at the root.  Contexts are never
modified. -/
def assign (s : MState) (m : Nat) (e : Expr) : Except KErr MState :=
  let r := mroot s m
  match s.cells[r]? with
  | none => .error (.unknownName "?m")
  | some c =>
    if occursMVar r e then .error .occursCheck
    else if freeVarsBelow c.ctx.length e then
      .ok ⟨s.cells.set r ⟨some e, c.ctx, c.find, c.rank⟩⟩
    else .error .contextCheck

/-- Union by rank of two metavariable classes (modelled from the spec
§4.5): link the lower-rank root under the other; equal ranks bump the new
root's rank.  Contexts are never modified. -/
def unionMVars (s : MState) (i j : Nat) : MState :=
  let ri := mroot s i
  let rj := mroot s j
  if ri = rj then s
  else
    match s.cells[ri]?, s.cells[rj]? with
    | some ci, some cj =>
      if ci.rank < cj.rank then ⟨s.cells.set ri ⟨ci.assignment, ci.ctx, rj, ci.rank⟩⟩
      else if cj.rank < ci.rank then ⟨s.cells.set rj ⟨cj.assignment, cj.ctx, ri, cj.rank⟩⟩
      else
        ⟨(s.cells.set rj ⟨cj.assignment, cj.ctx, ri, cj.rank⟩).set ri
          ⟨ci.assignment, ci.ctx, ci.find, ci.rank + 1⟩⟩
    | _, _ => s

/-- The `metavar_env` states reachable through the public operations:
`mk_metavar` with an arbitrary caller-supplied context, and the state
updates of `assign` and `unify` (a successful `unify` changes the state
through assignments and union-by-rank merges only). -/
inductive Reachable : MState → Prop where
  | init : Reachable ⟨[]⟩
  | mkStep (s : MState) (ctx : MCtx) :
      Reachable s → Reachable (mk_metavar s ctx).1
  | assignStep (s : MState) (m : Nat) (e : Expr) (s' : MState) :
      Reachable s → assign s m e = .ok s' → Reachable s'
  | unionStep (s : MState) (i j : Nat) :
      Reachable s → Reachable (unionMVars s i j)

/-- The two context invariants of `kernel/metavar.h` lines 41-54, as a
checker: (1) a metavariable does not occur in its own context; (2) if
`?m1` occurs in the context of `?m2` then the context of `?m1` is a prefix
of the context of `?m2`. -/
def checkInv (s : MState) : Bool :=
  (List.range s.cells.length).all fun i =>
    match s.cells[i]? with
    | none => true
    | some ci =>
      !(ctxOccurs i ci.ctx) &&
      ((List.range s.cells.length).all fun j =>
        match s.cells[j]? with
        | none => true
        | some cj => !(ctxOccurs i cj.ctx) || ctxPrefixOf ci.ctx cj.ctx)

/-- A state reached by two legal `mk_metavar` calls in which `?m0`'s
context `[A : Type]` is not a prefix of `?m1`'s context `[x : ?m0]`. -/
def mstateBad : MState :=
  (mk_metavar (mk_metavar ⟨[]⟩ [("A", .type .zero)]).1 [("x", .metavar 0 [])]).1

/-- Counterexample to claim C5 as stated: the module does not enforce the
context invariants (`kernel/metavar.h`: "these conditions are not enforced
by this module"); two public `mk_metavar` calls — the second passing a
context that mentions the first metavariable under a different prefix —
reach a state violating the prefix invariant. -/
theorem metavar_ctx_invariant_counterexample :
    ¬ (∀ s, Reachable s → checkInv s = true) := fun h =>
  absurd (h mstateBad (Reachable.mkStep _ _ (Reachable.mkStep _ _ Reachable.init)))
    (by decide)

theorem mvarsBelow_occurs_lt :
    ∀ e, ∀ k i, mvarsBelow k e = true → occursMVar i e = true → i < k := by
  refine weight.induct
    (fun e => ∀ k i, mvarsBelow k e = true → occursMVar i e = true → i < k)
    (fun ls => ∀ k i, mvarsBelowLctx k ls = true → occursMVarLctx i ls = true → i < k)
    (fun es => ∀ k i, mvarsBelowList k es = true → occursMVarList i es = true → i < k)
    (fun oe => ∀ k i, mvarsBelowOpt k oe = true → occursMVarOpt i oe = true → i < k)
    ?_ ?_ ?_ ?_ ?_ ?_ ?_ ?_ ?_ ?_ ?_ ?_ ?_ ?_ ?_ ?_ ?_ ?_ ?_ ?_
  · exact fun _ k i _ h2 => absurd h2 (by simp [occursMVar])
  · exact fun _ _ _ k i _ h2 => absurd h2 (by simp [occursMVar])
  · exact fun _ k i _ h2 => absurd h2 (by simp [occursMVar])
  · exact fun _ k i _ h2 => absurd h2 (by simp [occursMVar])
  · exact fun _ ih k i h1 h2 => ih k i h1 h2
  · intro nm d b ih1 ih2
    refine fun k i h1 h2 => ?_
    simp only [mvarsBelow, occursMVar, Bool.and_eq_true, Bool.or_eq_true] at h1 h2
    rcases h2 with h2 | h2
    · exact ih1 k i h1.1 h2
    · exact ih2 k i h1.2 h2
  · intro nm d b ih1 ih2
    refine fun k i h1 h2 => ?_
    simp only [mvarsBelow, occursMVar, Bool.and_eq_true, Bool.or_eq_true] at h1 h2
    rcases h2 with h2 | h2
    · exact ih1 k i h1.1 h2
    · exact ih2 k i h1.2 h2
  · intro nm d b ih1 ih2
    refine fun k i h1 h2 => ?_
    simp only [mvarsBelow, occursMVar, Bool.and_eq_true, Bool.or_eq_true] at h1 h2
    rcases h2 with h2 | h2
    · exact ih1 k i h1.1 h2
    · exact ih2 k i h1.2 h2
  · intro f s t ih1 ih2 ih3
    refine fun k i h1 h2 => ?_
    simp only [mvarsBelow, occursMVar, Bool.and_eq_true, Bool.or_eq_true] at h1 h2
    rcases h2 with (h2 | h2) | h2
    · exact ih1 k i h1.1.1 h2
    · exact ih2 k i h1.1.2 h2
    · exact ih3 k i h1.2 h2
  · exact fun _ _ ih k i h1 h2 => ih k i h1 h2
  · intro nm ty v b ihty ihv ihb
    refine fun k i h1 h2 => ?_
    simp only [mvarsBelow, occursMVar, Bool.and_eq_true, Bool.or_eq_true] at h1 h2
    rcases h2 with (h2 | h2) | h2
    · exact ihty k i h1.1.1 h2
    · exact ihv k i h1.1.2 h2
    · exact ihb k i h1.2 h2
  · intro l r ih1 ih2
    refine fun k i h1 h2 => ?_
    simp only [mvarsBelow, occursMVar, Bool.and_eq_true, Bool.or_eq_true] at h1 h2
    rcases h2 with h2 | h2
    · exact ih1 k i h1.1 h2
    · exact ih2 k i h1.2 h2
  · intro m lctx ih
    refine fun k i h1 h2 => ?_
    simp only [mvarsBelow, occursMVar, Bool.and_eq_true, Bool.or_eq_true,
      beq_iff_eq, decide_eq_true_eq] at h1 h2
    rcases h2 with h2 | h2
    · omega
    · exact ih k i h1.2 h2
  · exact fun k i _ h2 => absurd h2 (by simp [occursMVarOpt])
  · exact fun _ ih k i h1 h2 => ih k i h1 h2
  · exact fun k i _ h2 => absurd h2 (by simp [occursMVarList])
  · intro f rest ih1 ih2
    refine fun k i h1 h2 => ?_
    simp only [mvarsBelowList, occursMVarList, Bool.and_eq_true, Bool.or_eq_true] at h1 h2
    rcases h2 with h2 | h2
    · exact ih1 k i h1.1 h2
    · exact ih2 k i h1.2 h2
  · exact fun k i _ h2 => absurd h2 (by simp [occursMVarLctx])
  · exact fun _ _ _ ih k i h1 h2 => ih k i h1 h2
  · intro s v es ih1 ih2
    refine fun k i h1 h2 => ?_
    simp only [mvarsBelowLctx, occursMVarLctx, Bool.and_eq_true, Bool.or_eq_true] at h1 h2
    rcases h2 with h2 | h2
    · exact ih1 k i h1.1 h2
    · exact ih2 k i h1.2 h2

theorem ctxMVarsBelow_occurs_lt {k i : Nat} {ctx : MCtx}
    (h1 : ctxMVarsBelow k ctx = true) (h2 : ctxOccurs i ctx = true) : i < k := by
  simp only [ctxMVarsBelow, ctxOccurs, List.all_eq_true, List.any_eq_true] at h1 h2
  obtain ⟨p, hp, ho⟩ := h2
  exact mvarsBelow_occurs_lt p.2 k i (h1 p hp) ho

/-- The discipline under which the header comment says the invariants hold
"by construction": a context passed to `mk_metavar` mentions only already
created metavariables, and the recorded context of each one is a prefix of
the new context. -/
def ctxAdmissible (s : MState) (ctx : MCtx) : Bool :=
  ctxMVarsBelow s.cells.length ctx &&
  ((List.range s.cells.length).all fun i =>
    match s.cells[i]? with
    | none => true
    | some ci => !(ctxOccurs i ctx) || ctxPrefixOf ci.ctx ctx)

/-- Reachability through the public operations when every `mk_metavar`
call obeys the construction discipline the header comment describes. -/
inductive GReachable : MState → Prop where
  | init : GReachable ⟨[]⟩
  | mkStep (s : MState) (ctx : MCtx) :
      GReachable s → ctxAdmissible s ctx = true → GReachable (mk_metavar s ctx).1
  | assignStep (s : MState) (m : Nat) (e : Expr) (s' : MState) :
      GReachable s → assign s m e = .ok s' → GReachable s'
  | unionStep (s : MState) (i j : Nat) :
      GReachable s → GReachable (unionMVars s i j)

/-- Strengthened induction invariant: each cell's context mentions only
strictly earlier metavariables, and the context of every metavariable it
mentions is a prefix of it. -/
def StrongInvP (s : MState) : Prop :=
  ∀ j cj, s.cells[j]? = some cj →
    ctxMVarsBelow j cj.ctx = true ∧
    (∀ i ci, s.cells[i]? = some ci → ctxOccurs i cj.ctx = true →
      ctxPrefixOf ci.ctx cj.ctx = true)

theorem ctxProj_some (s : MState) (j : Nat) (cj : MCell) (t : MState)
    (h : (s.cells[j]?).map MCell.ctx = (t.cells[j]?).map MCell.ctx)
    (hj : s.cells[j]? = some cj) :
    ∃ cj0, t.cells[j]? = some cj0 ∧ cj.ctx = cj0.ctx := by
  rw [hj] at h
  cases hm : t.cells[j]? with
  | none =>
    rw [hm] at h
    simp at h
  | some cj0 =>
    rw [hm] at h
    simp at h
    exact ⟨cj0, rfl, h⟩

theorem strongInv_of_ctxProj (s s' : MState)
    (h : ∀ j : Nat, (s'.cells[j]?).map MCell.ctx = (s.cells[j]?).map MCell.ctx) :
    StrongInvP s → StrongInvP s' := by
  intro hs j cj hj
  obtain ⟨cj0, hm, hctx⟩ := ctxProj_some s' j cj s (h j) hj
  obtain ⟨hb, hp⟩ := hs j cj0 hm
  refine ⟨by rw [hctx]; exact hb, fun i ci hi hocc => ?_⟩
  obtain ⟨ci0, hmi, hctxi⟩ := ctxProj_some s' i ci s (h i) hi
  have hres := hp i ci0 hmi (by rw [← hctx]; exact hocc)
  rw [hctxi, hctx]
  exact hres

theorem ctxProj_set (l : List MCell) (r : Nat) (c c' : MCell)
    (hctx : c'.ctx = c.ctx) (hr : l[r]? = some c) :
    ∀ j : Nat, ((l.set r c')[j]?).map MCell.ctx = (l[j]?).map MCell.ctx := by
  intro j
  by_cases hjr : r = j
  · subst hjr
    have hlt : r < l.length := (List.getElem?_eq_some.mp hr).1
    rw [List.getElem?_set_self hlt, hr]
    simp [hctx]
  · rw [List.getElem?_set_ne hjr]

theorem greachable_strongInv : ∀ s, GReachable s → StrongInvP s := by
  intro s h
  induction h with
  | init =>
    intro j cj hj
    simp at hj
  | mkStep s ctx hgr hadm ih =>
    intro j cj hj
    simp only [mk_metavar] at hj
    simp only [ctxAdmissible, Bool.and_eq_true, List.all_eq_true] at hadm
    obtain ⟨hbel, hpref⟩ := hadm
    rw [List.getElem?_append] at hj
    by_cases hjlt : j < s.cells.length
    · rw [if_pos hjlt] at hj
      obtain ⟨hb, hpre⟩ := ih j cj hj
      refine ⟨hb, fun i ci hi hocc => ?_⟩
      simp only [mk_metavar, List.getElem?_append] at hi
      by_cases hilt : i < s.cells.length
      · rw [if_pos hilt] at hi
        exact hpre i ci hi hocc
      · exact absurd (ctxMVarsBelow_occurs_lt hb hocc) (by omega)
    · rw [if_neg hjlt] at hj
      by_cases hjeq : j = s.cells.length
      · subst hjeq
        simp only [Nat.sub_self, List.getElem?_cons_zero, Option.some.injEq] at hj
        subst hj
        refine ⟨hbel, fun i ci hi hocc => ?_⟩
        simp only [mk_metavar, List.getElem?_append] at hi
        by_cases hilt : i < s.cells.length
        · rw [if_pos hilt] at hi
          have hcl := hpref i (List.mem_range.mpr hilt)
          rw [hi] at hcl
          have hcl2 : (!(ctxOccurs i ctx) || ctxPrefixOf ci.ctx ctx) = true := hcl
          rw [Bool.or_eq_true] at hcl2
          rcases hcl2 with hno | hyes
          · rw [hocc] at hno
            exact absurd hno (by decide)
          · exact hyes
        · exact absurd (ctxMVarsBelow_occurs_lt hbel hocc) (by omega)
      · rw [List.getElem?_eq_none (by simp; omega)] at hj
        cases hj
  | assignStep s m e s' hgr hok ih =>
    simp only [assign] at hok
    split at hok
    · cases hok
    · rename_i c hc
      by_cases h1 : occursMVar (mroot s m) e = true
      · rw [if_pos h1] at hok
        cases hok
      · rw [if_neg h1] at hok
        by_cases h2 : freeVarsBelow c.ctx.length e = true
        · rw [if_pos h2] at hok
          cases hok
          have hp := ctxProj_set s.cells (mroot s m) c
            ⟨some e, c.ctx, c.find, c.rank⟩ rfl hc
          exact strongInv_of_ctxProj _ _ hp ih
        · rw [if_neg h2] at hok
          cases hok
  | unionStep s i j hgr ih =>
    simp only [unionMVars]
    split
    · exact ih
    · rename_i hne
      split
      · rename_i ci cj hci hcj
        split_ifs with hr1 hr2
        · have hp := ctxProj_set s.cells (mroot s i) ci
            ⟨ci.assignment, ci.ctx, mroot s j, ci.rank⟩ rfl hci
          exact strongInv_of_ctxProj _ _ hp ih
        · have hp := ctxProj_set s.cells (mroot s j) cj
            ⟨cj.assignment, cj.ctx, mroot s i, cj.rank⟩ rfl hcj
          exact strongInv_of_ctxProj _ _ hp ih
        · have hp1 := ctxProj_set s.cells (mroot s j) cj
            ⟨cj.assignment, cj.ctx, mroot s i, cj.rank⟩ rfl hcj
          have hmid := strongInv_of_ctxProj _ _ hp1 ih
          have hci2 : (s.cells.set (mroot s j)
              ⟨cj.assignment, cj.ctx, mroot s i, cj.rank⟩)[mroot s i]? = some ci := by
            rw [List.getElem?_set_ne (fun hh => hne hh.symm)]
            exact hci
          have hp2 := ctxProj_set _ (mroot s i) ci
            ⟨ci.assignment, ci.ctx, ci.find, ci.rank + 1⟩ rfl hci2
          exact strongInv_of_ctxProj _ _ hp2 hmid
      · exact ih

/-- Claim C5 (amended): the module itself does not enforce the two
context invariants (the header says they hold "by construction" and are
"not enforced by this module"); they do hold in every state reachable
through the public operations provided each context passed to
`mk_metavar` mentions only already-created metavariables whose recorded
contexts are prefixes of it — then no metavariable occurs in its own
context, and whenever `?m1` occurs in the context of `?m2` the context of
`?m1` is a prefix of the context of `?m2`. -/
theorem metavar_ctx_invariant_amended (s : MState) (h : GReachable s) :
    checkInv s = true := by
  have hs := greachable_strongInv s h
  simp only [checkInv, List.all_eq_true, List.mem_range]
  intro i hi
  match hm : s.cells[i]? with
  | none => rfl
  | some ci =>
    obtain ⟨hb, hpre⟩ := hs i ci hm
    simp only [Bool.and_eq_true, Bool.not_eq_eq_eq_not, Bool.not_true, List.all_eq_true,
      List.mem_range]
    constructor
    · cases hocc : ctxOccurs i ci.ctx
      · rfl
      · exact absurd (ctxMVarsBelow_occurs_lt hb hocc) (by omega)
    · intro j hj
      match hmj : s.cells[j]? with
      | none => rfl
      | some cj =>
        obtain ⟨hbj, hprej⟩ := hs j cj hmj
        show (!(ctxOccurs i cj.ctx) || ctxPrefixOf ci.ctx cj.ctx) = true
        cases hocc : ctxOccurs i cj.ctx
        · rfl
        · simp only [Bool.or_eq_true]
          exact Or.inr (hprej i ci hm hocc)

/-- Witness for `metavar_ctx_invariant_amended` at a concrete input: one
admissible `mk_metavar` call. -/
theorem metavar_ctx_invariant_amended_witness :
    GReachable ((mk_metavar ⟨[]⟩ [("A", .type .zero)]).1) ∧
    checkInv ((mk_metavar ⟨[]⟩ [("A", .type .zero)]).1) = true :=
  have hg : GReachable ((mk_metavar ⟨[]⟩ [("A", .type .zero)]).1) :=
    GReachable.mkStep ⟨[]⟩ [("A", .type .zero)] GReachable.init (by decide)
  ⟨hg, metavar_ctx_invariant_amended _ hg⟩

end K0
